import Mathlib

/-!
Verification development for the `globus_transfer` repository.

The repository consists of small Python batch scripts that scan a filesystem
tree for files modified inside a time window, group them by parent directory,
decide per group between bundling into a tarball (ARCHIVE) and transferring
raw files (RAW), and build a Globus transfer manifest.

This file gives a shallow embedding of the decision logic of
`recurring_transfer/transfer_to_fortress/tar_and_transfer.py` (the
scan / classify / stage / manifest pipeline) as well as the relevant parts of
`recurring_transfer/nightly_transfer_no_overwrite.py` and
`recurring_transfer/monthly_sync.py` (timestamp renaming, dry-run and
stat-failure handling), and proves the specified properties about them.

Modelling conventions:
  * timestamps compared by the scanners are modelled as integers
    (microseconds on the `datetime` timeline, which is totally ordered with
    microsecond resolution);
  * `datetime` objects fed to `strftime` are modelled as a record of
    calendar fields;
  * Python float division in the mean-size computation is modelled with
    exact rational division;
  * the staging directory is modelled as an association list from staged
    paths to tarball contents, updated in program order (a second write to
    the same path overwrites the first, as `tarfile.open(path, "w")` does).
-/

namespace GlobusTransfer

/-- `SMALL_FILE_THRESHOLD = 50 * 1024 * 1024` from
`tar_and_transfer.py` line 27: if the average file size in a folder is
below this, the folder is tarred. -/
def SMALL_FILE_THRESHOLD : ℕ := 50 * 1024 * 1024

/-- The per-group batching decision: bundle into a tar (`ARCHIVE`) or
transfer files individually (`RAW`). -/
inductive Strategy
  | ARCHIVE
  | RAW
deriving DecidableEq, Repr

/-- `avg_size = total_size / len(file_list) if file_list else 0`
(`tar_and_transfer.py`, `main`).  Python float division is modelled by
exact rational division. -/
def avgSize (total count : ℕ) : ℚ :=
  if count = 0 then 0 else mkRat total count

/-- For a non-empty group `avg_size` is the exact quotient. -/
theorem avgSize_eq_div (total count : ℕ) (h : count ≠ 0) :
    avgSize total count = (total : ℚ) / (count : ℚ) := by
  simp [avgSize, h, Rat.mkRat_eq_div]

/-- The classifier branch `if avg_size < SMALL_FILE_THRESHOLD:` of `main`
in `tar_and_transfer.py` (tar when the mean is strictly below the
threshold, raw otherwise). -/
def classify (total count : ℕ) : Strategy :=
  if avgSize total count < (SMALL_FILE_THRESHOLD : ℚ) then .ARCHIVE else .RAW

/-- The chained comparison `start_window <= mtime <= end_window` used by
every scanner in the repository.  Timestamps are microseconds on the
`datetime` timeline. -/
def inWindow (start stop t : ℤ) : Bool :=
  decide (start ≤ t) && decide (t ≤ stop)

/-! ### Path helpers

String-level models of the `posixpath` / `os.path` functions the scripts
call.  Locally the scripts run on a POSIX host, so `os.sep = '/'` and
`os.path.join` agrees with `posixpath.join`. -/

/-- Whether a string starts with the path separator, as in Python's
`b.startswith('/')`. -/
def strStartsWithSlash (s : String) : Bool := s.data.head? = some '/'

/-- Whether a string ends with the path separator, as in Python's
`a.endswith('/')`. -/
def strEndsWithSlash (s : String) : Bool := s.data.getLast? = some '/'

/-- `posixpath.join(a, b)`: if `b` is absolute it replaces `a`; otherwise
`b` is appended, inserting `'/'` unless `a` is empty or already ends in a
separator. -/
def posixJoin (a b : String) : String :=
  if strStartsWithSlash b then b
  else if a = "" ∨ strEndsWithSlash a then a ++ b
  else a ++ "/" ++ b

/-- Character-wise action of `rel_path.replace(os.sep, '_')`. -/
def sepToUnderscore (c : Char) : Char := if c = '/' then '_' else c

/-- `rel_path.replace(os.sep, '_')` from `create_tarball`
(`tar_and_transfer.py` line 61): single-character replacement acts
character-wise. -/
def replaceSep (s : String) : String := String.mk (s.data.map sepToUnderscore)

/-- `safe_name = rel_path.replace(os.sep, '_') + ".tar"` from
`create_tarball`. -/
def createTarballName (relPath : String) : String := replaceSep relPath ++ ".tar"

/-- `abs_tar_path = os.path.join(staging_root, safe_name)` from
`create_tarball`. -/
def createTarballPath (stagingRoot relPath : String) : String :=
  posixJoin stagingRoot (createTarballName relPath)

/-- Characters of a path after its last separator (empty if the path ends
in a separator). -/
def afterLastSlash (l : List Char) : List Char :=
  l.foldl (fun acc c => if c = '/' then [] else acc ++ [c]) []

/-- `os.path.basename` on a POSIX host: everything after the last `'/'`. -/
def basename (s : String) : String := String.mk (afterLastSlash s.data)

/-- Index of the last occurrence of a character in a list, if any
(Python's `str.rfind`, with `none` for "not found"). -/
def lastIdx (l : List Char) (c : Char) : Option ℕ :=
  (l.foldl (fun acc p => (acc.1 + 1, if p = c then some acc.1 else acc.2))
    ((0 : ℕ), (none : Option ℕ))).2

/-- Drop separator characters from the end of a character list
(Python's `head.rstrip('/')`). -/
def dropTrailingSlashes (l : List Char) : List Char :=
  (l.reverse.dropWhile (fun c => c = '/')).reverse

/-- `posixpath.dirname`: everything up to the last `'/'`, with trailing
separators stripped unless the head consists of separators only. -/
def dirnameStr (s : String) : String :=
  match lastIdx s.data '/' with
  | none => ""
  | some i =>
    let head := s.data.take (i + 1)
    if head.all (fun c => c = '/') then String.mk head
    else String.mk (dropTrailingSlashes head)

/-- `os.path.splitext`: split at the last dot, unless that dot lies inside
the leading run of dots of the basename (so `".bashrc"` has no
extension). -/
def splitExt (s : String) : String × String :=
  match lastIdx s.data '.' with
  | none => (s, "")
  | some di =>
    let si : ℤ := match lastIdx s.data '/' with
      | none => -1
      | some j => (j : ℤ)
    let stemRun := (s.data.take di).drop (si + 1).toNat
    if si < (di : ℤ) ∧ ¬ stemRun.all (fun c => c = '.') then
      (String.mk (s.data.take di), String.mk (s.data.drop di))
    else (s, "")

/-! ### The archiver pipeline (`tar_and_transfer.py`)

A filesystem regular file as seen by the `os.walk` loop of `main`.  The
walk yields the file inside directory `dir` (path relative to
`SOURCE_ROOT`, `"."` for the root itself) with base name `name`.
`statOk` records whether `os.path.getmtime` succeeds (`False` models an
`OSError`: permission failure, vanished file, broken symlink), and
`statErr` the message of that error. -/
structure FsFile where
  dir : String
  name : String
  size : ℕ
  mtime : ℤ
  statOk : Bool
  statErr : String
deriving DecidableEq, Repr

/-- `os.path.relpath(file_path, SOURCE_ROOT)` for a walked file: `dir/name`,
collapsing the `"."` directory to just the base name. -/
def relFile (f : FsFile) : String :=
  if f.dir = "." then f.name else f.dir ++ "/" ++ f.name

/-- The files the scan loop of `main` accepts: stat succeeded and
`start_window <= mtime <= end_window`. -/
def qualFiles (start stop : ℤ) (fs : List FsFile) : List FsFile :=
  fs.filter (fun f => f.statOk && inWindow start stop f.mtime)

/-- One entry of `modified_groups`: a directory (relative path) together
with the accepted files walked inside it, in walk order. -/
structure Group where
  relPath : String
  files : List FsFile
deriving DecidableEq, Repr

/-- `modified_groups[root].append(file_path)` on a `defaultdict(list)`:
append to the existing entry of the key, or create a new entry at the end
(Python dicts preserve insertion order). -/
def addToGroups (gs : List Group) (d : String) (f : FsFile) : List Group :=
  match gs with
  | [] => [⟨d, [f]⟩]
  | g :: rest =>
    if g.relPath = d then ⟨g.relPath, g.files ++ [f]⟩ :: rest
    else g :: addToGroups rest d f

/-- One iteration of the scan loop of `main` (`tar_and_transfer.py` lines
113-121).  The second component is the list of recorded skip entries
(path, reason): the `except OSError:` branch executes `continue` and
records nothing. -/
def scanStep (start stop : ℤ) (acc : List Group × List (String × String)) (f : FsFile) :
    List Group × List (String × String) :=
  if f.statOk then
    if inWindow start stop f.mtime then (addToGroups acc.1 f.dir f, acc.2)
    else acc
  else
    acc

/-- The whole scan loop: fold `scanStep` over the walked files. -/
def tarScan (start stop : ℤ) (fs : List FsFile) :
    List Group × List (String × String) :=
  fs.foldl (scanStep start stop) ([], [])

/-- The groups produced by the scan (first component of `tarScan`). -/
def scanGroups (start stop : ℤ) (fs : List FsFile) : List Group :=
  fs.foldl
    (fun gs f => if f.statOk && inWindow start stop f.mtime then addToGroups gs f.dir f else gs)
    []

/-- Result of a successful `create_tarball` call: the staged path and the
tar's entries, each entry an (arcname, source path) pair —
`tar.add(file_path, arcname=os.path.basename(file_path))`. -/
structure TarResult where
  path : String
  entries : List (String × String)
deriving DecidableEq, Repr

/-- `create_tarball(staging_root, rel_path, file_list)` on the success
path. -/
def createTarball (stagingRoot relPath : String) (fileList : List String) : TarResult :=
  { path := createTarballPath stagingRoot relPath
  , entries := fileList.map (fun p => (basename p, p)) }

/-- A manifest entry added by `transfer_data.add_item(g_source, g_dest)`.
A `tar` item also records the staged local path of its bundle and the
entries written into that bundle; a `raw` item records the source file it
transfers. -/
inductive TItem
  | tar (localPath gSource gDest : String) (entries : List (String × String))
  | raw (gSource gDest src : String)
deriving DecidableEq, Repr

/-- The configuration values of `main` that enter manifest construction. -/
structure RunConfig where
  GLOBUS_SOURCE_ROOT : String
  STAGING_ROOT : String
  GLOBUS_STAGING_ROOT : String
  DEST_ROOT : String
deriving Repr

/-- Mutable state threaded through the group loop of `main`: the manifest
items, the staging directory contents (an association list from staged
path to tar entries), and the `files_queued` / `tars_created` counters. -/
structure RunState where
  items : List TItem
  disk : List (String × List (String × String))
  filesQueued : ℕ
  tarsCreated : ℕ
deriving DecidableEq, Repr

/-- Writing a file into the staging directory: overwrite the entry with
the same path, or append a new one (`tarfile.open(path, "w")` truncates
an existing file). -/
def diskWrite (disk : List (String × List (String × String))) (p : String)
    (c : List (String × String)) : List (String × List (String × String)) :=
  match disk with
  | [] => [(p, c)]
  | e :: rest => if e.1 = p then (p, c) :: rest else e :: diskWrite rest p c

/-- Contents of the staging directory at a path (empty if absent). -/
def diskGet (disk : List (String × List (String × String))) (p : String) :
    List (String × String) :=
  match disk.find? (fun e => e.1 = p) with
  | some e => e.2
  | none => []

/-- `tar_name_base = "root_files" if rel_path == '.' else rel_path`
(`tar_and_transfer.py` line 147). -/
def tarNameBase (relPath : String) : String :=
  if relPath = "." then "root_files" else relPath

/-- Total byte size of a group: `sum(os.path.getsize(f) for f in file_list)`. -/
def groupTotal (g : Group) : ℕ := (g.files.map FsFile.size).sum

/-- One iteration of the group loop of `main` (`tar_and_transfer.py` lines
144-178).  `stageOk d` tells whether `create_tarball` succeeds for the
group with relative path `d`; on failure it returns `None`, the group is
dropped and the loop continues. -/
def groupStep (cfg : RunConfig) (stageOk : String → Bool) (st : RunState) (g : Group) :
    RunState :=
  if avgSize (groupTotal g) g.files.length < (SMALL_FILE_THRESHOLD : ℚ) then
    if stageOk g.relPath then
      let tarRes := createTarball cfg.STAGING_ROOT (tarNameBase g.relPath)
        (g.files.map relFile)
      let gSource := posixJoin cfg.GLOBUS_STAGING_ROOT (basename tarRes.path)
      let gDest := posixJoin cfg.DEST_ROOT (tarNameBase g.relPath ++ ".tar")
      { items := st.items ++ [.tar tarRes.path gSource gDest tarRes.entries]
        disk := diskWrite st.disk tarRes.path tarRes.entries
        filesQueued := st.filesQueued + 1
        tarsCreated := st.tarsCreated + 1 }
    else st
  else
    { st with
      items := st.items ++ g.files.map (fun f =>
        .raw (posixJoin cfg.GLOBUS_SOURCE_ROOT (relFile f))
             (posixJoin cfg.DEST_ROOT (relFile f)) (relFile f))
      filesQueued := st.filesQueued + g.files.length }

/-- The empty state before the group loop. -/
def initState : RunState := ⟨[], [], 0, 0⟩

/-- A whole run of `main`: scan, then fold the group loop.  Returns the
final state and the recorded scan skips. -/
def runMain (cfg : RunConfig) (stageOk : String → Bool) (start stop : ℤ)
    (fs : List FsFile) : RunState × List (String × String) :=
  let scanned := tarScan start stop fs
  (scanned.1.foldl (groupStep cfg stageOk) initState, scanned.2)

/-- `if files_queued > 0: tc.submit_transfer(...)`: whether the run reaches
submission. -/
def submitted (st : RunState) : Bool := decide (0 < st.filesQueued)

/-! ### The ARCHIVE / RAW decomposition of the group loop

`groupStep` is the literal translation of the loop body; the following
definitions name the pieces it contributes to each state component, for
use in the proofs. -/

/-- Whether the group loop classifies a group ARCHIVE (its tar branch is
taken). -/
def isArchiveGroup (g : Group) : Bool :=
  decide (avgSize (groupTotal g) g.files.length < (SMALL_FILE_THRESHOLD : ℚ))

/-- The staged path `create_tarball` uses for a group. -/
def stagedPath (cfg : RunConfig) (g : Group) : String :=
  createTarballPath cfg.STAGING_ROOT (tarNameBase g.relPath)

/-- The tar entries `create_tarball` writes for a group. -/
def stagedEntries (g : Group) : List (String × String) :=
  (g.files.map relFile).map (fun p => (basename p, p))

/-- The manifest items one iteration of the group loop appends. -/
def itemsOfGroup (cfg : RunConfig) (stageOk : String → Bool) (g : Group) : List TItem :=
  if isArchiveGroup g then
    if stageOk g.relPath then
      [.tar (stagedPath cfg g)
            (posixJoin cfg.GLOBUS_STAGING_ROOT (basename (stagedPath cfg g)))
            (posixJoin cfg.DEST_ROOT (tarNameBase g.relPath ++ ".tar"))
            (stagedEntries g)]
    else []
  else
    g.files.map (fun f =>
      .raw (posixJoin cfg.GLOBUS_SOURCE_ROOT (relFile f))
           (posixJoin cfg.DEST_ROOT (relFile f)) (relFile f))

/-- The staging-directory writes one iteration of the group loop performs. -/
def writesOfGroup (cfg : RunConfig) (stageOk : String → Bool) (g : Group) :
    List (String × List (String × String)) :=
  if isArchiveGroup g then
    if stageOk g.relPath then [(stagedPath cfg g, stagedEntries g)] else []
  else []

/-- The `files_queued` increment of one iteration of the group loop. -/
def queuedOfGroup (stageOk : String → Bool) (g : Group) : ℕ :=
  if isArchiveGroup g then (if stageOk g.relPath then 1 else 0) else g.files.length

/-! ### Reference predicates for manifest items -/

/-- Whether a manifest item is the raw item of source file `p`. -/
def isRawRefB (p : String) : TItem → Bool
  | .raw _ _ src => src = p
  | .tar _ _ _ _ => false

/-- Whether a manifest item is a tar item whose bundle (as written by its
`create_tarball` call) contains source file `p`. -/
def isTarRefB (p : String) : TItem → Bool
  | .tar _ _ _ entries => entries.any (fun e => e.2 = p)
  | .raw _ _ _ => false

/-- Whether a manifest item is a tar item whose staged bundle, as it rests
on the staging disk at the end of the run, contains source file `p`. -/
def isTarDiskRefB (disk : List (String × List (String × String))) (p : String) :
    TItem → Bool
  | .tar localPath _ _ _ => (diskGet disk localPath).any (fun e => e.2 = p)
  | .raw _ _ _ => false

/-- Whether a manifest item references source file `p` at all (raw, or via
the contents of its `create_tarball` call). -/
def refsItem (p : String) (it : TItem) : Bool :=
  isRawRefB p it || isTarRefB p it

/-- Whether a manifest item references source file `p`, reading tar
bundles from the final staging disk. -/
def refsDiskItem (disk : List (String × List (String × String))) (p : String)
    (it : TItem) : Bool :=
  isRawRefB p it || isTarDiskRefB disk p it

/-- The accepted files of the run that lie in directory `d` (what the
group of `d` ends up holding). -/
def dirQualFiles (start stop : ℤ) (fs : List FsFile) (d : String) : List FsFile :=
  (qualFiles start stop fs).filter (fun f => f.dir = d)

/-- The strategy `main` selects for the directory group of `d`. -/
def stratOf (start stop : ℤ) (fs : List FsFile) (d : String) : Strategy :=
  classify ((dirQualFiles start stop fs d).map FsFile.size).sum
    (dirQualFiles start stop fs d).length

/-- The staged bundle paths of the ARCHIVE-classified groups of a group
list. -/
def archiveStagedPaths (cfg : RunConfig) (gs : List Group) : List String :=
  (gs.filter (fun g => isArchiveGroup g)).map (fun g => stagedPath cfg g)

/-- The staged bundle file name a run of `main` over window
`[start, stop]` produces for a group with relative path `relPath`
(`tar_and_transfer.py` lines 130-135 and 144-165).  The window enters the
transfer label `Archive_<date>` but not the tar name, which `main` derives
from `tar_name_base` alone; hence the window parameters are unused. -/
def runBundleName (_start _stop : ℤ) (relPath : String) : String :=
  createTarballName (tarNameBase relPath)

/-! ### Timestamped renaming (`nightly_transfer_no_overwrite.py`,
`monthly_sync.py`)

A `datetime` value as produced by `datetime.fromtimestamp`: calendar
fields down to microseconds. -/
structure DateTime where
  year : ℕ
  month : ℕ
  day : ℕ
  hour : ℕ
  minute : ℕ
  second : ℕ
  micro : ℕ
deriving DecidableEq, Repr

/-- Field bounds of a `datetime` value, restricted to four-digit years
(every realistic file mtime), so that `%Y` renders in exactly four
digits. -/
def DateTime.valid (d : DateTime) : Prop :=
  1000 ≤ d.year ∧ d.year ≤ 9999 ∧ 1 ≤ d.month ∧ d.month ≤ 12 ∧
  1 ≤ d.day ∧ d.day ≤ 31 ∧ d.hour ≤ 23 ∧ d.minute ≤ 59 ∧ d.second ≤ 59 ∧
  d.micro ≤ 999999

instance (d : DateTime) : Decidable d.valid := by
  unfold DateTime.valid; infer_instance

/-- Lexicographic key of a `datetime` (each multiplier bounds the next
field), giving the total order Python's `datetime` comparison implements. -/
def DateTime.key (d : DateTime) : ℕ :=
  (((((d.year * 13 + d.month) * 32 + d.day) * 24 + d.hour) * 60 + d.minute) * 60
      + d.second) * 1000000 + d.micro

/-- `datetime` comparison `a <= b`. -/
def dtLE (a b : DateTime) : Bool := decide (a.key ≤ b.key)

/-- Two-digit zero-padded decimal rendering (`%m`, `%d`, `%H`, `%M`,
`%S`). -/
def pad2 (n : ℕ) : List Char := [Nat.digitChar (n / 10), Nat.digitChar (n % 10)]

/-- Four-digit decimal rendering of a four-digit year (`%Y`). -/
def pad4 (n : ℕ) : List Char :=
  [Nat.digitChar (n / 1000), Nat.digitChar (n / 100 % 10),
   Nat.digitChar (n / 10 % 10), Nat.digitChar (n % 10)]

/-- `mtime.strftime("%Y%m%d_%H%M%S")` as a character list. -/
def strftimeChars (d : DateTime) : List Char :=
  pad4 d.year ++ pad2 d.month ++ pad2 d.day ++ '_' :: (pad2 d.hour ++ pad2 d.minute ++ pad2 d.second)

/-- `timestamp_str = mtime.strftime("%Y%m%d_%H%M%S")`. -/
def tsString (d : DateTime) : String := String.mk (strftimeChars d)

/-- The second-precision part of a `datetime` (what `strftime` renders;
"modified at different seconds" means these tuples differ). -/
def secondsTuple (d : DateTime) : ℕ × ℕ × ℕ × ℕ × ℕ × ℕ :=
  (d.year, d.month, d.day, d.hour, d.minute, d.second)

/-- `new_filename = f"<name_part>_<timestamp_str><ext_part>"` with
`name_part, ext_part = os.path.splitext(f)`
(`nightly_transfer_no_overwrite.py` lines 66-68, `monthly_sync.py` lines
89-91). -/
def newFilename (f : String) (d : DateTime) : String :=
  (splitExt f).1 ++ "_" ++ tsString d ++ (splitExt f).2

/-- A file seen by the walk of the timestamp-renaming sync scripts:
directory and base name relative to `SOURCE_ROOT`, the `datetime` of its
mtime, and the outcome of `os.path.getmtime`. -/
structure NFile where
  dir : String
  name : String
  mtime : DateTime
  statOk : Bool
  statErr : String
deriving DecidableEq, Repr

/-- `rel_path = os.path.relpath(file_path, source_local_root)` for a
walked file. -/
def relNFile (f : NFile) : String :=
  if f.dir = "." then f.name else f.dir ++ "/" ++ f.name

/-- State accumulated by `add_files_with_timestamps` of
`nightly_transfer_no_overwrite.py`: the `(g_source, g_dest)` pairs added
to the transfer, the `[DRY RUN]` log lines (modelled as the
`(rel_path, new_filename)` pairs they print), and `files_added`. -/
structure NState where
  queued : List (String × String)
  dryLogs : List (String × String)
  filesAdded : ℕ
deriving DecidableEq, Repr

/-- One iteration of the walk loop of `add_files_with_timestamps`
(`nightly_transfer_no_overwrite.py` lines 55-80).  The `except OSError:`
branch executes `continue` and records nothing. -/
def nightlyStep (gsr droot : String) (start stop : DateTime) (dry : Bool)
    (st : NState) (f : NFile) : NState :=
  if f.statOk then
    if dtLE start f.mtime && dtLE f.mtime stop then
      let relPath := relNFile f
      let newName := newFilename f.name f.mtime
      if dry then
        { st with dryLogs := st.dryLogs ++ [(relPath, newName)]
                  filesAdded := st.filesAdded + 1 }
      else
        { st with
            queued := st.queued ++
              [(posixJoin gsr relPath,
                posixJoin (posixJoin droot (dirnameStr relPath)) newName)]
            filesAdded := st.filesAdded + 1 }
    else st
  else st

/-- `add_files_with_timestamps` of `nightly_transfer_no_overwrite.py`. -/
def addFilesWithTimestamps (gsr droot : String) (start stop : DateTime) (dry : Bool)
    (fs : List NFile) : NState :=
  fs.foldl (nightlyStep gsr droot start stop dry) ⟨[], [], 0⟩

/-- The tail of `main` in `nightly_transfer_no_overwrite.py`: submit only
when not a dry run and at least one file was added.  Returns the final
walk state and whether `tc.submit_transfer` was called. -/
def nightlyMain (gsr droot : String) (start stop : DateTime) (dry : Bool)
    (fs : List NFile) : NState × Bool :=
  let st := addFilesWithTimestamps gsr droot start stop dry fs
  (st, decide (0 < st.filesAdded) && !dry)

/-- The files the timestamp-renaming walk accepts. -/
def nightlyQual (start stop : DateTime) (fs : List NFile) : List NFile :=
  fs.filter (fun f => f.statOk && (dtLE start f.mtime && dtLE f.mtime stop))

/-- State accumulated by `add_files_with_timestamps` of `monthly_sync.py`:
as the nightly variant, plus the `logger.warning` skip records of its
`except OSError as e:` branch, modelled as the `(file_path, reason)` pairs
the message `"Could not process <file_path>: <e>"` carries. -/
structure MState where
  queued : List (String × String)
  dryLogs : List (String × String)
  warnings : List (String × String)
  filesAdded : ℕ
deriving DecidableEq, Repr

/-- One iteration of the walk loop of `add_files_with_timestamps` in
`monthly_sync.py` (lines 78-107): identical to the nightly variant except
that a stat failure is logged with the offending path and the error. -/
def monthlyStep (gsr droot : String) (start stop : DateTime) (dry : Bool)
    (st : MState) (f : NFile) : MState :=
  if f.statOk then
    if dtLE start f.mtime && dtLE f.mtime stop then
      let relPath := relNFile f
      let newName := newFilename f.name f.mtime
      if dry then
        { st with dryLogs := st.dryLogs ++ [(relPath, newName)]
                  filesAdded := st.filesAdded + 1 }
      else
        { st with
            queued := st.queued ++
              [(posixJoin gsr relPath,
                posixJoin (posixJoin droot (dirnameStr relPath)) newName)]
            filesAdded := st.filesAdded + 1 }
    else st
  else
    { st with warnings := st.warnings ++ [(relNFile f, f.statErr)] }

/-- `add_files_with_timestamps` of `monthly_sync.py`. -/
def monthlyAddFiles (gsr droot : String) (start stop : DateTime) (dry : Bool)
    (fs : List NFile) : MState :=
  fs.foldl (monthlyStep gsr droot start stop dry) ⟨[], [], [], 0⟩

/-! ### Claim C2: the classifier threshold -/

/-- C2: for every non-empty directory group the classifier selects ARCHIVE
exactly when the mean file size (total bytes divided by file count) is
strictly below the threshold (default 50 MiB = 52,428,800 bytes) and RAW
otherwise; a mean equal to the threshold gives RAW and a mean one byte
below gives ARCHIVE. -/
theorem classifier_threshold (total count : ℕ) (h : 0 < count) :
    SMALL_FILE_THRESHOLD = 52428800 ∧
    (classify total count = .ARCHIVE ↔
      (total : ℚ) / (count : ℚ) < (SMALL_FILE_THRESHOLD : ℚ)) ∧
    (classify total count = .RAW ↔
      (SMALL_FILE_THRESHOLD : ℚ) ≤ (total : ℚ) / (count : ℚ)) ∧
    ((total : ℚ) / (count : ℚ) = (SMALL_FILE_THRESHOLD : ℚ) →
      classify total count = .RAW) ∧
    ((total : ℚ) / (count : ℚ) = (SMALL_FILE_THRESHOLD : ℚ) - 1 →
      classify total count = .ARCHIVE) := by
  have hc : count ≠ 0 := Nat.pos_iff_ne_zero.mp h
  have harch : classify total count = .ARCHIVE ↔
      (total : ℚ) / (count : ℚ) < (SMALL_FILE_THRESHOLD : ℚ) := by
    simp only [classify, avgSize_eq_div total count hc]
    split_ifs with hlt <;> simp [hlt]
  have hraw : classify total count = .RAW ↔
      (SMALL_FILE_THRESHOLD : ℚ) ≤ (total : ℚ) / (count : ℚ) := by
    have hsplit : classify total count = .RAW ↔ ¬ classify total count = .ARCHIVE := by
      cases hcl : classify total count <;> simp
    rw [hsplit, harch, not_lt]
  refine ⟨by norm_num [SMALL_FILE_THRESHOLD], harch, hraw, ?_, ?_⟩
  · intro he
    exact hraw.mpr (le_of_eq he.symm)
  · intro he
    refine harch.mpr ?_
    rw [he]
    norm_num

/-- Witness for C2 at the boundary inputs: a one-file group of exactly
52,428,800 bytes classifies RAW, one of 52,428,799 bytes classifies
ARCHIVE. -/
theorem classifier_threshold_witness :
    0 < 1 ∧ classify 52428800 1 = .RAW ∧ classify 52428799 1 = .ARCHIVE := by
  refine ⟨by decide, ?_, ?_⟩
  · exact (classifier_threshold 52428800 1 (by decide)).2.2.2.1
      (by norm_num [SMALL_FILE_THRESHOLD])
  · exact (classifier_threshold 52428799 1 (by decide)).2.2.2.2
      (by norm_num [SMALL_FILE_THRESHOLD])

/-! ### Claim C3: inclusive time window -/

/-- C3: a scanned file qualifies exactly when `start ≤ mtime ≤ stop`, both
bounds inclusive; mtimes exactly at either bound are included, and one
microsecond outside either bound is excluded. -/
theorem window_boundaries (s e t : ℤ) (h : s ≤ e) :
    (inWindow s e t = true ↔ s ≤ t ∧ t ≤ e) ∧
    inWindow s e s = true ∧ inWindow s e e = true ∧
    inWindow s e (s - 1) = false ∧ inWindow s e (e + 1) = false ∧
    (∀ (fs : List FsFile) (f : FsFile),
      f ∈ qualFiles s e fs ↔ f ∈ fs ∧ f.statOk = true ∧ s ≤ f.mtime ∧ f.mtime ≤ e) := by
  have hiff : ∀ u : ℤ, inWindow s e u = true ↔ s ≤ u ∧ u ≤ e := by
    intro u; simp [inWindow]
  refine ⟨hiff t, (hiff s).mpr ⟨le_refl s, h⟩, (hiff e).mpr ⟨h, le_refl e⟩, ?_, ?_, ?_⟩
  · cases hb : inWindow s e (s - 1) with
    | false => rfl
    | true => exact absurd ((hiff _).mp hb) (by omega)
  · cases hb : inWindow s e (e + 1) with
    | false => rfl
    | true => exact absurd ((hiff _).mp hb) (by omega)
  · intro fs f
    simp [qualFiles, List.mem_filter, inWindow, and_assoc]

/-- Witness for C3 at a concrete window: both bounds are included and one
microsecond past the end bound is excluded. -/
theorem window_boundaries_witness :
    (0 : ℤ) ≤ 10 ∧ inWindow 0 10 0 = true ∧ inWindow 0 10 10 = true ∧
    inWindow 0 10 11 = false := by
  have hth := window_boundaries 0 10 3 (by decide)
  exact ⟨by decide, hth.2.1, hth.2.2.1, hth.2.2.2.2.1⟩

/-! ### Claim C4: deterministic bundle naming -/

/-- C4: the bundle name is a pure function of the group's relative path
(in particular independent of the file list): every path separator is
replaced by an underscore and `".tar"` is appended, and the resulting
name contains no separator; two `create_tarball` calls for the same
relative path produce the same staged path. -/
theorem bundle_name_deterministic (stagingRoot relPath : String)
    (files1 files2 : List String) :
    (createTarball stagingRoot relPath files1).path =
      (createTarball stagingRoot relPath files2).path ∧
    (createTarball stagingRoot relPath files1).path =
      posixJoin stagingRoot (replaceSep relPath ++ ".tar") ∧
    (replaceSep relPath).data = relPath.data.map sepToUnderscore ∧
    ('/' : Char) ∉ (replaceSep relPath).data := by
  refine ⟨rfl, rfl, rfl, ?_⟩
  intro hmem
  rw [show (replaceSep relPath).data = relPath.data.map sepToUnderscore from rfl] at hmem
  obtain ⟨c, _, hc⟩ := List.mem_map.mp hmem
  unfold sepToUnderscore at hc
  split at hc
  · exact absurd hc (by decide)
  · next hne => exact absurd hc hne

/-! ### Claim C5: window labels in bundle names (refuted) -/

/-- Counterexample to C5: two runs over different time windows (here two
consecutive days, as microsecond timestamps) produce the identical bundle
name for the same relative directory path — the window label never enters
the name. -/
theorem window_label_collision :
    runBundleName 0 86399999999 "data/raw" =
      runBundleName 86400000000 172799999999 "data/raw" ∧
    (0 : ℤ) ≠ 86400000000 ∧ (86399999999 : ℤ) ≠ 172799999999 :=
  ⟨rfl, by decide, by decide⟩

/-- C5 amended: bundle names do not include the window label; the staged
bundle name a run derives for a group depends only on the group's
relative path, so any two runs (whatever their windows) produce the same
name for the same relative directory. -/
theorem bundle_name_ignores_window (s1 e1 s2 e2 : ℤ) (relPath : String) :
    runBundleName s1 e1 relPath = runBundleName s2 e2 relPath ∧
    runBundleName s1 e1 relPath = replaceSep (tarNameBase relPath) ++ ".tar" ∧
    (∀ (cfg : RunConfig) (g : Group),
      stagedPath cfg g = posixJoin cfg.STAGING_ROOT (runBundleName s1 e1 g.relPath)) :=
  ⟨rfl, rfl, fun _ _ => rfl⟩

/-! ### Claim C6: timestamp renaming gives distinct filenames -/

/-- Decimal digit characters are distinct for distinct digits. -/
theorem digitChar_inj (a b : ℕ) (ha : a < 10) (hb : b < 10)
    (h : Nat.digitChar a = Nat.digitChar b) : a = b := by
  interval_cases a <;> interval_cases b <;> revert h <;> decide

/-- Two-digit zero-padded rendering is injective below 100, and peels off
an equal-length prefix of a longer string. -/
theorem pad2_peel {a b : ℕ} {l1 l2 : List Char} (ha : a < 100) (hb : b < 100)
    (h : pad2 a ++ l1 = pad2 b ++ l2) : a = b ∧ l1 = l2 := by
  obtain ⟨hp, hl⟩ := List.append_inj h (by simp [pad2])
  refine ⟨?_, hl⟩
  simp only [pad2, List.cons.injEq, and_true] at hp
  have h1 := digitChar_inj (a / 10) (b / 10) (by omega) (by omega) hp.1
  have h2 := digitChar_inj (a % 10) (b % 10) (by omega) (by omega) hp.2
  omega

/-- Four-digit zero-padded rendering is injective on four-digit numbers,
peeling off an equal-length prefix. -/
theorem pad4_peel {a b : ℕ} {l1 l2 : List Char} (ha : a ≤ 9999) (hb : b ≤ 9999)
    (h : pad4 a ++ l1 = pad4 b ++ l2) : a = b ∧ l1 = l2 := by
  obtain ⟨hp, hl⟩ := List.append_inj h (by simp [pad4])
  refine ⟨?_, hl⟩
  simp only [pad4, List.cons.injEq, and_true] at hp
  have h1 := digitChar_inj (a / 1000) (b / 1000) (by omega) (by omega) hp.1
  have h2 := digitChar_inj (a / 100 % 10) (b / 100 % 10) (by omega) (by omega) hp.2.1
  have h3 := digitChar_inj (a / 10 % 10) (b / 10 % 10) (by omega) (by omega) hp.2.2.1
  have h4 := digitChar_inj (a % 10) (b % 10) (by omega) (by omega) hp.2.2.2
  omega

/-- The `"%Y%m%d_%H%M%S"` rendering determines the second-precision fields
of a valid `datetime`. -/
theorem strftimeChars_inj {d1 d2 : DateTime} (h1 : d1.valid) (h2 : d2.valid)
    (h : strftimeChars d1 = strftimeChars d2) : secondsTuple d1 = secondsTuple d2 := by
  obtain ⟨hy1a, hy1b, hmo1a, hmo1b, hd1a, hd1b, hh1, hmi1, hs1, hu1⟩ := h1
  obtain ⟨hy2a, hy2b, hmo2a, hmo2b, hd2a, hd2b, hh2, hmi2, hs2, hu2⟩ := h2
  simp only [strftimeChars, List.append_assoc] at h
  obtain ⟨hy, h⟩ := pad4_peel hy1b hy2b h
  obtain ⟨hmo, h⟩ := pad2_peel (by omega) (by omega) h
  obtain ⟨hd, h⟩ := pad2_peel (by omega) (by omega) h
  simp only [List.cons.injEq, true_and] at h
  obtain ⟨hh, h⟩ := pad2_peel (by omega) (by omega) h
  obtain ⟨hmi, h⟩ := pad2_peel (by omega) (by omega) h
  have hs : d1.second = d2.second := by
    have h' : pad2 d1.second ++ ([] : List Char) = pad2 d2.second ++ [] := by
      simpa using h
    exact (pad2_peel (by omega) (by omega) h').1
  simp [secondsTuple, hy, hmo, hd, hh, hmi, hs]

/-- The `"%Y%m%d_%H%M%S"` rendering always has 15 characters. -/
theorem strftimeChars_length (d : DateTime) : (strftimeChars d).length = 15 := by
  simp [strftimeChars, pad2, pad4]

/-- C6: with timestamp renaming, the destination filename embeds the
mtime between the stem and the extension
(`stem_YYYYMMDD_HHMMSS.ext`), and two files with the same base name
modified at different seconds receive distinct destination filenames. -/
theorem timestamp_rename_distinct (f : String) (d1 d2 : DateTime)
    (h1 : d1.valid) (h2 : d2.valid)
    (hne : secondsTuple d1 ≠ secondsTuple d2) :
    newFilename f d1 ≠ newFilename f d2 ∧
    (newFilename f d1).data =
      (splitExt f).1.data ++ '_' :: (strftimeChars d1 ++ (splitExt f).2.data) := by
  have hud : ("_" : String).data = ['_'] := rfl
  have hts : ∀ d : DateTime, (tsString d).data = strftimeChars d := fun _ => rfl
  constructor
  · intro heq
    apply hne
    have hd : (newFilename f d1).data = (newFilename f d2).data :=
      congrArg String.data heq
    simp only [newFilename, String.data_append, hud, hts, List.append_assoc,
      List.singleton_append, List.cons_append] at hd
    have hd2 := List.append_cancel_left hd
    have hd2' : strftimeChars d1 ++ (splitExt f).2.data =
        strftimeChars d2 ++ (splitExt f).2.data := by
      injection hd2
    have hd3 := List.append_inj hd2'
      (by rw [strftimeChars_length, strftimeChars_length])
    exact strftimeChars_inj h1 h2 hd3.1
  · simp only [newFilename, String.data_append, hud, hts, List.append_assoc,
      List.singleton_append, List.cons_append, List.nil_append]

/-- Witness for C6: `data.txt` modified one second apart produces distinct
destination filenames. -/
theorem timestamp_rename_distinct_witness :
    (DateTime.mk 2024 5 1 12 0 0 0).valid ∧ (DateTime.mk 2024 5 1 12 0 1 0).valid ∧
    secondsTuple ⟨2024, 5, 1, 12, 0, 0, 0⟩ ≠ secondsTuple ⟨2024, 5, 1, 12, 0, 1, 0⟩ ∧
    newFilename "data.txt" ⟨2024, 5, 1, 12, 0, 0, 0⟩ ≠
      newFilename "data.txt" ⟨2024, 5, 1, 12, 0, 1, 0⟩ := by
  refine ⟨by decide, by decide, by decide, ?_⟩
  exact (timestamp_rename_distinct "data.txt" ⟨2024, 5, 1, 12, 0, 0, 0⟩
    ⟨2024, 5, 1, 12, 0, 1, 0⟩ (by decide) (by decide) (by decide)).1

/-! ### Characterizing the timestamp-renaming walks -/

/-- The `(g_source, g_dest)` pair a real (non-dry) run queues for an
accepted file. -/
def nightlyQueueItem (gsr droot : String) (f : NFile) : String × String :=
  (posixJoin gsr (relNFile f),
   posixJoin (posixJoin droot (dirnameStr (relNFile f))) (newFilename f.name f.mtime))

/-- The `(rel_path, new_filename)` pair a dry run logs for an accepted
file. -/
def nightlyLogItem (f : NFile) : String × String :=
  (relNFile f, newFilename f.name f.mtime)

/-- Unfolding of the nightly walk from an arbitrary starting state. -/
theorem nightly_foldl_spec (gsr droot : String) (start stop : DateTime) (dry : Bool)
    (fs : List NFile) (st : NState) :
    fs.foldl (nightlyStep gsr droot start stop dry) st =
      ⟨st.queued ++ (if dry then []
          else (nightlyQual start stop fs).map (nightlyQueueItem gsr droot)),
        st.dryLogs ++ (if dry then (nightlyQual start stop fs).map nightlyLogItem else []),
        st.filesAdded + (nightlyQual start stop fs).length⟩ := by
  induction fs generalizing st with
  | nil => cases dry <;> simp [nightlyQual]
  | cons f fs ih =>
    by_cases hok : f.statOk = true
    · by_cases hw : (dtLE start f.mtime && dtLE f.mtime stop) = true
      · cases dry with
        | false =>
          simp only [List.foldl_cons, nightlyStep, hok, hw, if_true, Bool.false_eq_true,
            if_false, ih]
          simp [nightlyQual, List.filter_cons, hok, hw, nightlyQueueItem, NState.mk.injEq]
          omega
        | true =>
          simp only [List.foldl_cons, nightlyStep, hok, hw, if_true, ih]
          simp [nightlyQual, List.filter_cons, hok, hw, nightlyLogItem, NState.mk.injEq]
          omega
      · simp only [List.foldl_cons, nightlyStep, hok, hw, if_true, Bool.false_eq_true,
          if_false, ih]
        simp [nightlyQual, List.filter_cons, hok, hw]
    · have hok' : f.statOk = false := by simpa using hok
      simp only [List.foldl_cons, nightlyStep, hok', Bool.false_eq_true, if_false, ih]
      simp [nightlyQual, List.filter_cons, hok']

/-- Unfolding of the monthly walk from an arbitrary starting state: same
queue/log/count behaviour as the nightly walk, plus one warning record
per stat failure. -/
theorem monthly_foldl_spec (gsr droot : String) (start stop : DateTime) (dry : Bool)
    (fs : List NFile) (st : MState) :
    fs.foldl (monthlyStep gsr droot start stop dry) st =
      ⟨st.queued ++ (if dry then []
          else (nightlyQual start stop fs).map (nightlyQueueItem gsr droot)),
        st.dryLogs ++ (if dry then (nightlyQual start stop fs).map nightlyLogItem else []),
        st.warnings ++ (fs.filter (fun f => !f.statOk)).map (fun f => (relNFile f, f.statErr)),
        st.filesAdded + (nightlyQual start stop fs).length⟩ := by
  induction fs generalizing st with
  | nil => cases dry <;> simp [nightlyQual]
  | cons f fs ih =>
    by_cases hok : f.statOk = true
    · by_cases hw : (dtLE start f.mtime && dtLE f.mtime stop) = true
      · cases dry with
        | false =>
          simp only [List.foldl_cons, monthlyStep, hok, hw, if_true, Bool.false_eq_true,
            if_false, ih]
          simp [nightlyQual, List.filter_cons, hok, hw, nightlyQueueItem, MState.mk.injEq]
          omega
        | true =>
          simp only [List.foldl_cons, monthlyStep, hok, hw, if_true, ih]
          simp [nightlyQual, List.filter_cons, hok, hw, nightlyLogItem, MState.mk.injEq]
          omega
      · simp only [List.foldl_cons, monthlyStep, hok, hw, if_true, Bool.false_eq_true,
          if_false, ih]
        simp [nightlyQual, List.filter_cons, hok, hw]
    · have hok' : f.statOk = false := by simpa using hok
      simp only [List.foldl_cons, monthlyStep, hok', Bool.false_eq_true, if_false, ih]
      simp [nightlyQual, List.filter_cons, hok']

/-! ### Claim C9: dry runs have no effect and identify the same files -/

/-- C9: with `--dry-run`, nothing is added to the transfer, the submitter
is never called, and the files identified (the reported count and the
per-file log lines) are exactly the files a real run over the same
filesystem state queues. -/
theorem dry_run_no_effects (gsr droot : String) (start stop : DateTime)
    (fs : List NFile) :
    (nightlyMain gsr droot start stop true fs).1.queued = [] ∧
    (nightlyMain gsr droot start stop true fs).2 = false ∧
    (nightlyMain gsr droot start stop true fs).1.filesAdded =
      (nightlyMain gsr droot start stop false fs).1.filesAdded ∧
    (nightlyMain gsr droot start stop true fs).1.dryLogs =
      (nightlyQual start stop fs).map nightlyLogItem ∧
    (nightlyMain gsr droot start stop false fs).1.queued =
      (nightlyQual start stop fs).map (nightlyQueueItem gsr droot) ∧
    (nightlyMain gsr droot start stop false fs).1.dryLogs = [] := by
  have hdry := nightly_foldl_spec gsr droot start stop true fs ⟨[], [], 0⟩
  have hreal := nightly_foldl_spec gsr droot start stop false fs ⟨[], [], 0⟩
  simp only [nightlyMain, addFilesWithTimestamps]
  simp [hdry, hreal]

/-! ### Claim C8: stat failures (refuted for the archiver scan) -/

/-- The scan loop never records a skip entry, whatever it walks: its
`except OSError:` branch is a bare `continue`. -/
theorem tarScan_spec (s e : ℤ) (fs : List FsFile) :
    tarScan s e fs = (scanGroups s e fs, []) := by
  suffices haux : ∀ (fs : List FsFile) (acc : List Group × List (String × String)),
      fs.foldl (scanStep s e) acc =
        (fs.foldl (fun gs f =>
          if f.statOk && inWindow s e f.mtime then addToGroups gs f.dir f else gs) acc.1,
         acc.2) by
    exact haux fs ([], [])
  intro fs
  induction fs with
  | nil => intro acc; rfl
  | cons f fs ih =>
    intro acc
    by_cases hok : f.statOk = true
    · by_cases hw : inWindow s e f.mtime = true
      · simp [List.foldl_cons, scanStep, hok, hw, ih]
      · simp [List.foldl_cons, scanStep, hok, hw, ih]
    · have hok' : f.statOk = false := by simpa using hok
      simp [List.foldl_cons, scanStep, hok', ih]

/-- Files whose stat fails are excluded from the groups and the scan
continues: the scan of a walk equals the scan of the walk with the
failing files removed. -/
theorem scanGroups_filter_statOk (s e : ℤ) (fs : List FsFile) :
    scanGroups s e fs = scanGroups s e (fs.filter (fun f => f.statOk)) := by
  suffices haux : ∀ (fs : List FsFile) (acc : List Group),
      fs.foldl (fun gs f =>
        if f.statOk && inWindow s e f.mtime then addToGroups gs f.dir f else gs) acc =
      (fs.filter (fun f => f.statOk)).foldl (fun gs f =>
        if f.statOk && inWindow s e f.mtime then addToGroups gs f.dir f else gs) acc by
    exact haux fs []
  intro fs
  induction fs with
  | nil => intro acc; rfl
  | cons f fs ih =>
    intro acc
    by_cases hok : f.statOk = true
    · rw [List.foldl_cons, List.filter_cons_of_pos (by simpa using hok), List.foldl_cons]
      exact ih _
    · have hok' : f.statOk = false := by simpa using hok
      rw [List.foldl_cons, List.filter_cons_of_neg (by simp [hok'])]
      have hstep :
          (if (f.statOk && inWindow s e f.mtime) = true then addToGroups acc f.dir f else acc)
            = acc := by
        simp [hok']
      rw [hstep]
      exact ih acc

/-- A file of the archiver walk whose stat fails. -/
def fBad : FsFile := ⟨"a", "x.txt", 10, 0, false, "Permission denied"⟩

/-- A file of the archiver walk whose stat succeeds inside the window. -/
def fGood : FsFile := ⟨"b", "y.txt", 10, 0, true, ""⟩

/-- Counterexample to C8: in a concrete archiver scan containing a file
whose stat fails, the list of recorded skip entries is empty — the
failure is caught and the scan continues, but nothing carrying the
offending path and reason is recorded (`except OSError: continue`). -/
theorem scan_skip_not_recorded :
    fBad.statOk = false ∧
    (tarScan 0 0 [fBad, fGood]).2 = [] ∧
    (tarScan 0 0 [fBad, fGood]).1 = [⟨"b", [fGood]⟩] := by
  decide

/-- C8 amended: a stat failure is caught and the file excluded while the
scan continues in every scanner, and `monthly_sync` additionally records
each failure with the offending path and reason; but the archiver scan
(`tar_and_transfer.py`) and the nightly scan record nothing (silent
skip). -/
theorem stat_failures_skipped (s e : ℤ) (fs : List FsFile)
    (gsr droot : String) (start stop : DateTime) (dry : Bool) (nfs : List NFile) :
    (tarScan s e fs).2 = [] ∧
    (tarScan s e fs).1 = scanGroups s e (fs.filter (fun f => f.statOk)) ∧
    (monthlyAddFiles gsr droot start stop dry nfs).warnings =
      (nfs.filter (fun f => !f.statOk)).map (fun f => (relNFile f, f.statErr)) ∧
    (∀ f ∈ nightlyQual start stop nfs, f.statOk = true) := by
  refine ⟨?_, ?_, ?_, ?_⟩
  · rw [tarScan_spec]
  · rw [tarScan_spec, ← scanGroups_filter_statOk]
  · have := monthly_foldl_spec gsr droot start stop dry nfs ⟨[], [], [], 0⟩
    simp only [monthlyAddFiles]
    rw [this]
    simp
  · intro f hf
    simp only [nightlyQual, List.mem_filter, Bool.and_eq_true] at hf
    exact hf.2.1

/-! ### Structure of the scanned groups -/

/-- The directory keys of a group list, in order. -/
def keyList (gs : List Group) : List String := gs.map Group.relPath

/-- The file list stored under a directory key (empty if the key is
absent). -/
def filesOf (gs : List Group) (d : String) : List FsFile :=
  match gs with
  | [] => []
  | g :: rest => if g.relPath = d then g.files else filesOf rest d

theorem filesOf_addToGroups_same (gs : List Group) (d : String) (f : FsFile) :
    filesOf (addToGroups gs d f) d = filesOf gs d ++ [f] := by
  induction gs with
  | nil => simp [addToGroups, filesOf]
  | cons g rest ih =>
    by_cases hg : g.relPath = d
    · simp [addToGroups, hg, filesOf]
    · simp [addToGroups, hg, filesOf, ih]

theorem filesOf_addToGroups_other (gs : List Group) (d d' : String) (f : FsFile)
    (h : d' ≠ d) : filesOf (addToGroups gs d f) d' = filesOf gs d' := by
  have hdd : ¬ d = d' := fun he => h he.symm
  induction gs with
  | nil => simp [addToGroups, filesOf, hdd]
  | cons g rest ih =>
    by_cases hg : g.relPath = d
    · have hgd : ¬ g.relPath = d' := by rw [hg]; exact hdd
      simp [addToGroups, hg, filesOf, hgd, hdd]
    · by_cases hgd : g.relPath = d'
      · simp [addToGroups, hg, filesOf, hgd, h]
      · simp [addToGroups, hg, filesOf, hgd, ih]

theorem keyList_addToGroups (gs : List Group) (d : String) (f : FsFile) :
    keyList (addToGroups gs d f) =
      if d ∈ keyList gs then keyList gs else keyList gs ++ [d] := by
  induction gs with
  | nil => simp [addToGroups, keyList]
  | cons g rest ih =>
    by_cases hg : g.relPath = d
    · have hmem : d ∈ keyList (g :: rest) := by
        simp only [keyList, List.map_cons, List.mem_cons]
        exact Or.inl hg.symm
      rw [if_pos hmem]
      simp only [addToGroups, if_pos hg, keyList, List.map_cons]
    · have hne : ¬ d = g.relPath := fun he => hg he.symm
      have hcons : (d ∈ keyList (g :: rest)) ↔ d ∈ keyList rest := by
        simp only [keyList, List.map_cons, List.mem_cons]
        constructor
        · rintro (h1 | h2)
          · exact absurd h1 hne
          · exact h2
        · exact Or.inr
      have hstep : keyList (addToGroups (g :: rest) d f) =
          g.relPath :: keyList (addToGroups rest d f) := by
        simp [addToGroups, hg, keyList]
      rw [hstep, ih]
      by_cases hmem : d ∈ keyList rest
      · rw [if_pos hmem, if_pos (hcons.mpr hmem)]
        rfl
      · rw [if_neg hmem, if_neg (fun hx => hmem (hcons.mp hx))]
        rfl

theorem keyList_nodup_addToGroups (gs : List Group) (d : String) (f : FsFile)
    (h : (keyList gs).Nodup) : (keyList (addToGroups gs d f)).Nodup := by
  rw [keyList_addToGroups]
  by_cases hmem : d ∈ keyList gs
  · simpa [hmem] using h
  · simp only [hmem, if_false]
    rw [List.nodup_append]
    exact ⟨h, List.nodup_singleton d, by simpa using hmem⟩

/-- Unfolding the scan one walked file at a time (from the right). -/
theorem scanGroups_append_one (s e : ℤ) (fs : List FsFile) (f : FsFile) :
    scanGroups s e (fs ++ [f]) =
      if f.statOk && inWindow s e f.mtime then
        addToGroups (scanGroups s e fs) f.dir f
      else scanGroups s e fs := by
  simp only [scanGroups, List.foldl_append, List.foldl_cons, List.foldl_nil]

/-- The scanned groups have pairwise distinct directory keys (they come
from a Python dict). -/
theorem scanGroups_keys_nodup (s e : ℤ) (fs : List FsFile) :
    (keyList (scanGroups s e fs)).Nodup := by
  induction fs using List.reverseRecOn with
  | nil => simp [scanGroups, keyList]
  | append_singleton fs f ih =>
    rw [scanGroups_append_one]
    by_cases hq : (f.statOk && inWindow s e f.mtime) = true
    · rw [if_pos hq]
      exact keyList_nodup_addToGroups _ _ _ ih
    · rw [if_neg hq]
      exact ih

/-- The group of directory `d` collects exactly the accepted files of
`d`, in walk order. -/
theorem filesOf_scanGroups (s e : ℤ) (fs : List FsFile) (d : String) :
    filesOf (scanGroups s e fs) d =
      (qualFiles s e fs).filter (fun f => f.dir = d) := by
  induction fs using List.reverseRecOn with
  | nil => simp [scanGroups, filesOf, qualFiles]
  | append_singleton fs f ih =>
    rw [scanGroups_append_one]
    have hq : qualFiles s e (fs ++ [f]) =
        qualFiles s e fs ++ (if f.statOk && inWindow s e f.mtime then [f] else []) := by
      simp only [qualFiles, List.filter_append]
      by_cases hacc : (f.statOk && inWindow s e f.mtime) = true
      · simp [List.filter_cons, hacc]
      · simp [List.filter_cons, hacc]
    rw [hq]
    by_cases hacc : (f.statOk && inWindow s e f.mtime) = true
    · rw [if_pos hacc, if_pos hacc]
      by_cases hd : f.dir = d
      · rw [← hd, filesOf_addToGroups_same]
        simp [List.filter_append, List.filter_cons, ih, hd]
      · rw [filesOf_addToGroups_other _ _ _ _ (fun he => hd he.symm)]
        simp [List.filter_append, List.filter_cons, ih, hd]
    · rw [if_neg hacc, if_neg hacc]
      simp [List.filter_append, ih]

/-- With distinct keys, a member group's stored files are recovered by its
key. -/
theorem filesOf_of_mem {gs : List Group} (hnd : (keyList gs).Nodup)
    {g : Group} (hg : g ∈ gs) : filesOf gs g.relPath = g.files := by
  induction gs with
  | nil => cases hg
  | cons g0 rest ih =>
    rcases List.mem_cons.mp hg with he | hmem
    · subst he
      simp [filesOf]
    · have hnd' : (keyList rest).Nodup := by
        simpa [keyList] using (List.nodup_cons.mp (by simpa [keyList] using hnd)).2
      have hkey : ¬ g0.relPath = g.relPath := by
        intro he
        have h0 : g0.relPath ∉ keyList rest :=
          (List.nodup_cons.mp (by simpa [keyList] using hnd)).1
        exact h0 (he ▸ (List.mem_map.mpr ⟨g, hmem, rfl⟩))
      simp only [filesOf, if_neg hkey]
      exact ih hnd' hmem

/-- Every group a directory key occurs for is present in the key list. -/
theorem key_mem_of_filesOf_ne_nil {gs : List Group} {d : String}
    (h : filesOf gs d ≠ []) : d ∈ keyList gs := by
  induction gs with
  | nil => exact absurd rfl h
  | cons g rest ih =>
    by_cases hg : g.relPath = d
    · exact List.mem_cons.mpr (Or.inl hg.symm)
    · simp only [filesOf, if_neg hg] at h
      exact List.mem_cons.mpr (Or.inr (ih h))

/-! ### Decomposing the group loop -/

/-- One loop iteration in terms of its per-group contributions. -/
theorem groupStep_eq (cfg : RunConfig) (stageOk : String → Bool) (st : RunState)
    (g : Group) :
    groupStep cfg stageOk st g =
      { items := st.items ++ itemsOfGroup cfg stageOk g
        disk := (writesOfGroup cfg stageOk g).foldl (fun dsk w => diskWrite dsk w.1 w.2) st.disk
        filesQueued := st.filesQueued + queuedOfGroup stageOk g
        tarsCreated := st.tarsCreated +
          (if isArchiveGroup g && stageOk g.relPath then 1 else 0) } := by
  by_cases harch : avgSize (groupTotal g) g.files.length < (SMALL_FILE_THRESHOLD : ℚ)
  · have harch' : isArchiveGroup g = true := by simpa [isArchiveGroup] using harch
    by_cases hok : stageOk g.relPath = true
    · simp [groupStep, harch, hok, itemsOfGroup, writesOfGroup, queuedOfGroup, harch',
        createTarball, stagedPath, stagedEntries, TarResult.path, TarResult.entries]
    · have hok' : stageOk g.relPath = false := by simpa using hok
      simp [groupStep, harch, hok', itemsOfGroup, writesOfGroup, queuedOfGroup, harch']
  · have harch' : isArchiveGroup g = false := by simpa [isArchiveGroup] using harch
    simp [groupStep, harch, itemsOfGroup, writesOfGroup, queuedOfGroup, harch']

/-- The whole group loop in terms of per-group contributions. -/
theorem foldl_groupStep (cfg : RunConfig) (stageOk : String → Bool)
    (gs : List Group) (st : RunState) :
    gs.foldl (groupStep cfg stageOk) st =
      { items := st.items ++ gs.flatMap (itemsOfGroup cfg stageOk)
        disk := (gs.flatMap (writesOfGroup cfg stageOk)).foldl
          (fun dsk w => diskWrite dsk w.1 w.2) st.disk
        filesQueued := st.filesQueued + (gs.map (queuedOfGroup stageOk)).sum
        tarsCreated := st.tarsCreated + (gs.map
          (fun g => if isArchiveGroup g && stageOk g.relPath then 1 else 0)).sum } := by
  induction gs generalizing st with
  | nil => simp
  | cons g gs ih =>
    rw [List.foldl_cons, groupStep_eq, ih]
    simp [List.flatMap_cons, List.foldl_append, List.append_assoc, Nat.add_assoc]

/-! ### Counting manifest references -/

theorem countP_flatMap {α β : Type} (p : β → Bool) (gs : List α) (fn : α → List β) :
    (gs.flatMap fn).countP p = (gs.map (fun a => (fn a).countP p)).sum := by
  induction gs with
  | nil => simp
  | cons g gs ih => simp [List.flatMap_cons, List.countP_append, ih]

theorem countP_relFile_one {l : List FsFile} {f : FsFile} (hnd : l.Nodup) (hf : f ∈ l)
    (hinj : ∀ f' ∈ l, relFile f' = relFile f → f' = f) :
    l.countP (fun f' => decide (relFile f' = relFile f)) = 1 := by
  induction l with
  | nil => cases hf
  | cons x xs ih =>
    rcases List.mem_cons.mp hf with he | hmem
    · subst he
      rw [List.countP_cons]
      have hzero : xs.countP (fun f' => decide (relFile f' = relFile f)) = 0 := by
        rw [List.countP_eq_zero]
        intro a ha hpa
        have haf : a = f := hinj a (List.mem_cons_of_mem _ ha) (by simpa using hpa)
        exact (List.nodup_cons.mp hnd).1 (haf ▸ ha)
      simp [hzero]
    · have hne : ¬ x = f := fun he => (List.nodup_cons.mp hnd).1 (he ▸ hmem)
      have hpx : ¬ relFile x = relFile f := fun hre =>
        hne (hinj x (List.mem_cons_self x xs) hre)
      rw [List.countP_cons]
      simp only [hpx, decide_eq_true_eq, if_neg hpx, Nat.add_zero]
      exact ih (List.nodup_cons.mp hnd).2 hmem
        (fun f' hf' => hinj f' (List.mem_cons_of_mem _ hf'))

theorem countP_relFile_zero {l : List FsFile} {p : String}
    (hno : ∀ f' ∈ l, relFile f' ≠ p) :
    l.countP (fun f' => decide (relFile f' = p)) = 0 :=
  List.countP_eq_zero.mpr (by intro a ha; simpa using hno a ha)

/-- Raw-reference count of a group's items: zero for an ARCHIVE group,
one per matching file for a RAW group. -/
theorem countP_rawRef_itemsOfGroup (cfg : RunConfig) (stageOk : String → Bool)
    (g : Group) (p : String) :
    (itemsOfGroup cfg stageOk g).countP (isRawRefB p) =
      if isArchiveGroup g then 0
      else g.files.countP (fun f' => decide (relFile f' = p)) := by
  by_cases harch : isArchiveGroup g = true
  · by_cases hok : stageOk g.relPath = true
    · simp [itemsOfGroup, harch, hok, isRawRefB]
    · have hok' : stageOk g.relPath = false := by simpa using hok
      simp [itemsOfGroup, harch, hok']
  · have harch' : isArchiveGroup g = false := by simpa using harch
    simp only [itemsOfGroup, harch', Bool.false_eq_true, if_false, List.countP_map]
    rfl

theorem any_map_general {α β : Type} (l : List α) (g : α → β) (p : β → Bool) :
    (l.map g).any p = l.any (fun a => p (g a)) := by
  induction l with
  | nil => rfl
  | cons x xs ih => simp [List.any_cons, ih]

/-- Tar-reference count of a group's items: one if the group is staged
and its file list contains the path, zero otherwise. -/
theorem countP_tarRef_itemsOfGroup (cfg : RunConfig) (stageOk : String → Bool)
    (g : Group) (p : String) :
    (itemsOfGroup cfg stageOk g).countP (isTarRefB p) =
      if isArchiveGroup g && stageOk g.relPath then
        (if p ∈ g.files.map relFile then 1 else 0)
      else 0 := by
  by_cases harch : isArchiveGroup g = true
  · by_cases hok : stageOk g.relPath = true
    · have hany : (stagedEntries g).any (fun en => decide (en.2 = p)) =
          (g.files.map relFile).any (fun q => decide (q = p)) := by
        simp only [stagedEntries, List.map_map]
        rw [any_map_general, any_map_general]
        rfl
      by_cases hp : p ∈ g.files.map relFile
      · have htrue : (g.files.map relFile).any (fun q => decide (q = p)) = true := by
          rw [List.any_eq_true]
          exact ⟨p, hp, by simp⟩
        simp [itemsOfGroup, harch, hok, isTarRefB, hany, htrue, hp]
      · have hfalse : (g.files.map relFile).any (fun q => decide (q = p)) = false := by
          rw [Bool.eq_false_iff]
          intro hx
          rw [List.any_eq_true] at hx
          obtain ⟨q, hq, hqp⟩ := hx
          have hqp' : q = p := by simpa using hqp
          exact hp (hqp' ▸ hq)
        simp [itemsOfGroup, harch, hok, isTarRefB, hany, hfalse, hp]
    · have hok' : stageOk g.relPath = false := by simpa using hok
      simp [itemsOfGroup, harch, hok']
  · have harch' : isArchiveGroup g = false := by simpa using harch
    simp [itemsOfGroup, harch', isTarRefB, List.countP_map]

/-- A group none of whose files carries the path contributes no reference
to it at all. -/
theorem itemsOfGroup_count_zero (cfg : RunConfig) (stageOk : String → Bool)
    (g : Group) (p : String) (hno : ∀ f' ∈ g.files, relFile f' ≠ p) :
    (itemsOfGroup cfg stageOk g).countP (isRawRefB p) = 0 ∧
    (itemsOfGroup cfg stageOk g).countP (isTarRefB p) = 0 := by
  constructor
  · rw [countP_rawRef_itemsOfGroup]
    by_cases harch : isArchiveGroup g = true
    · simp [harch]
    · have harch' : isArchiveGroup g = false := by simpa using harch
      simp [harch', countP_relFile_zero hno]
  · rw [countP_tarRef_itemsOfGroup]
    have hp : p ∉ g.files.map relFile := by
      intro hmem
      obtain ⟨f', hf', he⟩ := List.mem_map.mp hmem
      exact hno f' hf' he
    by_cases harch : (isArchiveGroup g && stageOk g.relPath) = true
    · simp [harch, hp]
    · have harch' : (isArchiveGroup g && stageOk g.relPath) = false := by simpa using harch
      simp [harch']

theorem flatMap_count_zero_of_all (cfg : RunConfig) (stageOk : String → Bool)
    (gs : List Group) (p : TItem → Bool)
    (h : ∀ g ∈ gs, (itemsOfGroup cfg stageOk g).countP p = 0) :
    (gs.flatMap (itemsOfGroup cfg stageOk)).countP p = 0 := by
  rw [countP_flatMap]
  apply List.sum_eq_zero
  intro x hx
  obtain ⟨g, hg, rfl⟩ := List.mem_map.mp hx
  exact h g hg

/-- A group over a different directory never references an accepted
file of another directory (full paths are pairwise distinct). -/
theorem itemsOfGroup_count_other (cfg : RunConfig) (stageOk : String → Bool)
    (s e : ℤ) (fs : List FsFile) (hninj : (fs.map relFile).Nodup)
    (f : FsFile) (hffs : f ∈ fs) (g : Group)
    (hgchar : g.files = dirQualFiles s e fs g.relPath) (hne : g.relPath ≠ f.dir) :
    (itemsOfGroup cfg stageOk g).countP (isRawRefB (relFile f)) = 0 ∧
    (itemsOfGroup cfg stageOk g).countP (isTarRefB (relFile f)) = 0 := by
  apply itemsOfGroup_count_zero
  intro f' hf' hre
  rw [hgchar] at hf'
  have hmemq : f' ∈ qualFiles s e fs := List.mem_of_mem_filter hf'
  have hf'fs : f' ∈ fs := List.mem_of_mem_filter hmemq
  have hdir : f'.dir = g.relPath := by simpa using (List.mem_filter.mp hf').2
  have heq : f' = f := List.inj_on_of_nodup_map hninj hf'fs hffs hre
  exact hne (by rw [← hdir, heq])

/-- The item counts a file's own group contributes. -/
theorem itemsOfGroup_count_own (cfg : RunConfig) (stageOk : String → Bool)
    (s e : ℤ) (fs : List FsFile) (hninj : (fs.map relFile).Nodup)
    (f : FsFile) (hq : f ∈ qualFiles s e fs) (g : Group)
    (hgchar : g.files = dirQualFiles s e fs g.relPath) (hd : g.relPath = f.dir) :
    (itemsOfGroup cfg stageOk g).countP (isRawRefB (relFile f)) =
      (if isArchiveGroup g then 0 else 1) ∧
    (itemsOfGroup cfg stageOk g).countP (isTarRefB (relFile f)) =
      (if isArchiveGroup g && stageOk g.relPath then 1 else 0) := by
  have hffs : f ∈ fs := List.mem_of_mem_filter hq
  have hfin : f ∈ g.files := by
    rw [hgchar, hd]
    exact List.mem_filter.mpr ⟨hq, by simp⟩
  have hsubfs : ∀ x ∈ g.files, x ∈ fs := by
    intro x hx
    rw [hgchar] at hx
    exact List.mem_of_mem_filter (List.mem_of_mem_filter hx)
  have hndfs : fs.Nodup := List.Nodup.of_map relFile hninj
  have hndfiles : g.files.Nodup := by
    rw [hgchar]
    exact (hndfs.filter _).filter _
  have hinj1 : ∀ f' ∈ g.files, relFile f' = relFile f → f' = f := by
    intro f' hf' hre
    exact List.inj_on_of_nodup_map hninj (hsubfs f' hf') hffs hre
  constructor
  · rw [countP_rawRef_itemsOfGroup]
    by_cases harch : isArchiveGroup g = true
    · simp [harch]
    · have harch' : isArchiveGroup g = false := by simpa using harch
      simp only [harch', Bool.false_eq_true, if_false]
      exact countP_relFile_one hndfiles hfin hinj1
  · rw [countP_tarRef_itemsOfGroup]
    by_cases hcomb : (isArchiveGroup g && stageOk g.relPath) = true
    · have hp : relFile f ∈ g.files.map relFile := List.mem_map.mpr ⟨f, hfin, rfl⟩
      simp [hcomb, hp]
    · have hcomb' : (isArchiveGroup g && stageOk g.relPath) = false := by
        simpa using hcomb
      simp [hcomb']

/-- The canonical group the scan builds for a directory. -/
def canonGroup (s e : ℤ) (fs : List FsFile) (d : String) : Group :=
  ⟨d, dirQualFiles s e fs d⟩

/-- Reference counts over a list of well-formed groups: an accepted file
is referenced exactly once, by its own group, raw or via the staged
bundle according to the classification. -/
theorem count_over_groups (cfg : RunConfig) (stageOk : String → Bool) (s e : ℤ)
    (fs : List FsFile) (hninj : (fs.map relFile).Nodup)
    (f : FsFile) (hq : f ∈ qualFiles s e fs)
    (gs : List Group) (hnd : (keyList gs).Nodup)
    (hchar : ∀ g ∈ gs, g.files = dirQualFiles s e fs g.relPath) :
    ((gs.flatMap (itemsOfGroup cfg stageOk)).countP (isRawRefB (relFile f)) =
      if f.dir ∈ keyList gs ∧ isArchiveGroup (canonGroup s e fs f.dir) = false
      then 1 else 0) ∧
    ((gs.flatMap (itemsOfGroup cfg stageOk)).countP (isTarRefB (relFile f)) =
      if f.dir ∈ keyList gs ∧ isArchiveGroup (canonGroup s e fs f.dir) = true
          ∧ stageOk f.dir = true
      then 1 else 0) := by
  have hffs : f ∈ fs := List.mem_of_mem_filter hq
  induction gs with
  | nil => simp [keyList]
  | cons g gs ih =>
    have hndtail : (keyList gs).Nodup := (List.nodup_cons.mp hnd).2
    have hheadout : g.relPath ∉ keyList gs := (List.nodup_cons.mp hnd).1
    have hcharg : g.files = dirQualFiles s e fs g.relPath :=
      hchar g (List.mem_cons_self g gs)
    have hchart : ∀ g' ∈ gs, g'.files = dirQualFiles s e fs g'.relPath :=
      fun g' h => hchar g' (List.mem_cons_of_mem _ h)
    have hConsKeys : keyList (g :: gs) = g.relPath :: keyList gs := rfl
    by_cases hd : g.relPath = f.dir
    · -- the head is the file's own group
      have hgg : g = canonGroup s e fs f.dir := by
        have hfiles : g.files = dirQualFiles s e fs f.dir := by
          rw [hcharg, hd]
        obtain ⟨grp, gfl⟩ := g
        simp only [canonGroup, Group.mk.injEq]
        exact ⟨hd, hfiles⟩
      have hmemhead : f.dir ∈ keyList (g :: gs) := by
        rw [hConsKeys]
        exact List.mem_cons.mpr (Or.inl hd.symm)
      have howncounts := itemsOfGroup_count_own cfg stageOk s e fs hninj f hq g hcharg hd
      have htailzero : ∀ g' ∈ gs,
          (itemsOfGroup cfg stageOk g').countP (isRawRefB (relFile f)) = 0 ∧
          (itemsOfGroup cfg stageOk g').countP (isTarRefB (relFile f)) = 0 := by
        intro g' hg'
        refine itemsOfGroup_count_other cfg stageOk s e fs hninj f hffs g'
          (hchart g' hg') ?_
        intro he
        exact hheadout (by rw [hd, ← he]; exact List.mem_map.mpr ⟨g', hg', rfl⟩)
      constructor
      · rw [List.flatMap_cons, List.countP_append, howncounts.1,
          flatMap_count_zero_of_all cfg stageOk gs _ (fun g' h => (htailzero g' h).1)]
        rw [← hgg]
        by_cases harch : isArchiveGroup g = true
        · simp [harch, hmemhead]
        · have harch' : isArchiveGroup g = false := by simpa using harch
          simp [harch', hmemhead]
      · rw [List.flatMap_cons, List.countP_append, howncounts.2,
          flatMap_count_zero_of_all cfg stageOk gs _ (fun g' h => (htailzero g' h).2)]
        rw [← hgg]
        by_cases harch : isArchiveGroup g = true
        · by_cases hok : stageOk g.relPath = true
          · simp [harch, hok, hmemhead, hd ▸ hok]
          · have hok' : stageOk g.relPath = false := by simpa using hok
            have hokd : stageOk f.dir = false := hd ▸ hok'
            simp [harch, hok', hmemhead, hokd]
        · have harch' : isArchiveGroup g = false := by simpa using harch
          simp [harch', hmemhead]
    · -- the head is a different directory's group
      have hheadzero := itemsOfGroup_count_other cfg stageOk s e fs hninj f hffs g
        hcharg hd
      have hmemiff : (f.dir ∈ keyList (g :: gs)) ↔ f.dir ∈ keyList gs := by
        rw [hConsKeys, List.mem_cons]
        constructor
        · rintro (h1 | h2)
          · exact absurd h1.symm hd
          · exact h2
        · exact Or.inr
      have ihres := ih hndtail hchart
      constructor
      · rw [List.flatMap_cons, List.countP_append, hheadzero.1, ihres.1]
        by_cases hmem : f.dir ∈ keyList gs
        · simp [hmem, hmemiff]
        · simp [hmem, hmemiff]
      · rw [List.flatMap_cons, List.countP_append, hheadzero.2, ihres.2]
        by_cases hmem : f.dir ∈ keyList gs
        · simp [hmem, hmemiff]
        · simp [hmem, hmemiff]

/-- The strategy of a directory matches the tar branch test of its
scanned group. -/
theorem stratOf_archive_iff (s e : ℤ) (fs : List FsFile) (d : String) :
    stratOf s e fs d = .ARCHIVE ↔ isArchiveGroup (canonGroup s e fs d) = true := by
  simp only [stratOf, classify, isArchiveGroup, canonGroup, groupTotal]
  split_ifs with h <;> simp [h]

theorem stratOf_raw_iff (s e : ℤ) (fs : List FsFile) (d : String) :
    stratOf s e fs d = .RAW ↔ isArchiveGroup (canonGroup s e fs d) = false := by
  simp only [stratOf, classify, isArchiveGroup, canonGroup, groupTotal]
  split_ifs with h <;> simp [h]

/-- Reference counts over a whole archiver run: an accepted file is
referenced by exactly one raw item when its directory classifies RAW, and
by exactly one tar item when it classifies ARCHIVE and its group stages
successfully. -/
theorem run_ref_counts (cfg : RunConfig) (stageOk : String → Bool) (s e : ℤ)
    (fs : List FsFile) (hninj : (fs.map relFile).Nodup)
    (f : FsFile) (hf : f ∈ fs) (hok : f.statOk = true)
    (hw : inWindow s e f.mtime = true) :
    ((runMain cfg stageOk s e fs).1.items.countP (isRawRefB (relFile f)) =
      if stratOf s e fs f.dir = .RAW then 1 else 0) ∧
    ((runMain cfg stageOk s e fs).1.items.countP (isTarRefB (relFile f)) =
      if stratOf s e fs f.dir = .ARCHIVE ∧ stageOk f.dir = true then 1 else 0) := by
  have hq : f ∈ qualFiles s e fs := List.mem_filter.mpr ⟨hf, by simp [hok, hw]⟩
  have hitems : (runMain cfg stageOk s e fs).1.items =
      (scanGroups s e fs).flatMap (itemsOfGroup cfg stageOk) := by
    simp only [runMain, tarScan_spec]
    rw [foldl_groupStep]
    simp [initState]
  have hnd := scanGroups_keys_nodup s e fs
  have hchar : ∀ g ∈ scanGroups s e fs, g.files = dirQualFiles s e fs g.relPath := by
    intro g hg
    have h1 := filesOf_of_mem hnd hg
    rw [← h1, filesOf_scanGroups]
    rfl
  have hkey : f.dir ∈ keyList (scanGroups s e fs) := by
    apply key_mem_of_filesOf_ne_nil
    rw [filesOf_scanGroups]
    intro hnil
    have hmem : f ∈ (qualFiles s e fs).filter (fun x => x.dir = f.dir) :=
      List.mem_filter.mpr ⟨hq, by simp⟩
    rw [hnil] at hmem
    cases hmem
  have hcounts := count_over_groups cfg stageOk s e fs hninj f hq _ hnd hchar
  rw [hitems]
  have hstrat : stratOf s e fs f.dir = .RAW ∨ stratOf s e fs f.dir = .ARCHIVE := by
    cases hst : stratOf s e fs f.dir
    · exact Or.inr rfl
    · exact Or.inl rfl
  constructor
  · rw [hcounts.1]
    rcases hstrat with hr | ha
    · have hfalse := (stratOf_raw_iff s e fs f.dir).mp hr
      simp [hr, hkey, hfalse]
    · have htrue := (stratOf_archive_iff s e fs f.dir).mp ha
      have hnr : ¬ stratOf s e fs f.dir = .RAW := by simp [ha]
      simp [hnr, htrue]
  · rw [hcounts.2]
    rcases hstrat with hr | ha
    · have hfalse := (stratOf_raw_iff s e fs f.dir).mp hr
      have hna : ¬ stratOf s e fs f.dir = .ARCHIVE := by simp [hr]
      simp [hna, hfalse]
    · have htrue := (stratOf_archive_iff s e fs f.dir).mp ha
      by_cases hsk : stageOk f.dir = true
      · simp [ha, hkey, htrue, hsk]
      · have hsk' : stageOk f.dir = false := by simpa using hsk
        simp [ha, htrue, hsk']

/-! ### The staging disk at the end of a run -/

theorem diskWrite_not_mem (dsk : List (String × List (String × String)))
    (p : String) (c : List (String × String)) (h : p ∉ dsk.map Prod.fst) :
    diskWrite dsk p c = dsk ++ [(p, c)] := by
  induction dsk with
  | nil => rfl
  | cons en rest ih =>
    have hne : ¬ en.1 = p := by
      intro he
      exact h (List.mem_cons.mpr (Or.inl he.symm))
    simp only [diskWrite, if_neg hne, List.cons_append]
    rw [ih (fun hm => h (List.mem_cons.mpr (Or.inr hm)))]

theorem foldl_diskWrite_fresh (ws : List (String × List (String × String)))
    (acc : List (String × List (String × String)))
    (hfresh : ∀ w ∈ ws, w.1 ∉ acc.map Prod.fst)
    (hnd : (ws.map Prod.fst).Nodup) :
    ws.foldl (fun dsk w => diskWrite dsk w.1 w.2) acc = acc ++ ws := by
  induction ws generalizing acc with
  | nil => simp
  | cons w ws ih =>
    rw [List.foldl_cons, diskWrite_not_mem acc w.1 w.2 (hfresh w (List.mem_cons_self w ws))]
    have hndtail : (ws.map Prod.fst).Nodup := (List.nodup_cons.mp hnd).2
    have hheadout : w.1 ∉ ws.map Prod.fst := (List.nodup_cons.mp hnd).1
    rw [ih (acc ++ [(w.1, w.2)]) ?_ hndtail]
    · simp
    · intro w' hw'
      rw [List.map_append, List.mem_append]
      rintro (h1 | h2)
      · exact hfresh w' (List.mem_cons_of_mem _ hw') h1
      · simp only [List.map_cons, List.map_nil, List.mem_singleton] at h2
        exact hheadout (h2 ▸ List.mem_map.mpr ⟨w', hw', rfl⟩)

theorem diskGet_of_mem (ws : List (String × List (String × String)))
    (hnd : (ws.map Prod.fst).Nodup) (p : String) (c : List (String × String))
    (hmem : (p, c) ∈ ws) : diskGet ws p = c := by
  induction ws with
  | nil => cases hmem
  | cons w ws ih =>
    rcases List.mem_cons.mp hmem with he | hm
    · subst he
      simp [diskGet, List.find?_cons]
    · have hne : ¬ w.1 = p := by
        intro he
        exact (List.nodup_cons.mp hnd).1 (he ▸ List.mem_map.mpr ⟨(p, c), hm, rfl⟩)
      simp only [diskGet, List.find?_cons]
      rw [show (decide (w.1 = p)) = false by simpa using hne]
      exact ih (List.nodup_cons.mp hnd).2 hm

theorem countP_congr_mem {α : Type} (l : List α) (p q : α → Bool)
    (h : ∀ x ∈ l, p x = q x) : l.countP p = l.countP q := by
  induction l with
  | nil => rfl
  | cons x xs ih =>
    simp only [List.countP_cons, h x (List.mem_cons_self x xs)]
    rw [ih (fun y hy => h y (List.mem_cons_of_mem _ hy))]

/-- A manifest reference is either a raw reference or a tar reference,
never both, so the counts add. -/
theorem countP_refs_split (p : String) (l : List TItem) :
    l.countP (refsItem p) = l.countP (isRawRefB p) + l.countP (isTarRefB p) := by
  induction l with
  | nil => rfl
  | cons it l ih =>
    simp only [List.countP_cons, ih]
    cases it with
    | tar a b c en =>
      rw [show refsItem p (TItem.tar a b c en) = isTarRefB p (TItem.tar a b c en) from rfl,
        show isRawRefB p (TItem.tar a b c en) = false from rfl]
      simp only [Bool.false_eq_true, if_false]
      omega
    | raw a b c =>
      rw [show refsItem p (TItem.raw a b c) =
            (isRawRefB p (TItem.raw a b c) || false) from rfl,
        Bool.or_false, show isTarRefB p (TItem.raw a b c) = false from rfl]
      simp only [Bool.false_eq_true, if_false]
      omega

theorem countP_refsDisk_split (dsk : List (String × List (String × String)))
    (p : String) (l : List TItem) :
    l.countP (refsDiskItem dsk p) =
      l.countP (isRawRefB p) + l.countP (isTarDiskRefB dsk p) := by
  induction l with
  | nil => rfl
  | cons it l ih =>
    simp only [List.countP_cons, ih]
    cases it with
    | tar a b c en =>
      rw [show refsDiskItem dsk p (TItem.tar a b c en) =
            isTarDiskRefB dsk p (TItem.tar a b c en) from rfl,
        show isRawRefB p (TItem.tar a b c en) = false from rfl]
      simp only [Bool.false_eq_true, if_false]
      omega
    | raw a b c =>
      rw [show refsDiskItem dsk p (TItem.raw a b c) =
            (isRawRefB p (TItem.raw a b c) || false) from rfl,
        Bool.or_false, show isTarDiskRefB dsk p (TItem.raw a b c) = false from rfl]
      simp only [Bool.false_eq_true, if_false]
      omega

/-- The final staging disk of a run. -/
theorem runMain_disk (cfg : RunConfig) (stageOk : String → Bool) (s e : ℤ)
    (fs : List FsFile) :
    (runMain cfg stageOk s e fs).1.disk =
      ((scanGroups s e fs).flatMap (writesOfGroup cfg stageOk)).foldl
        (fun dsk w => diskWrite dsk w.1 w.2) [] := by
  simp only [runMain, tarScan_spec]
  rw [foldl_groupStep]
  simp [initState]

/-- With every staging call succeeding, the run's disk writes are exactly
one per ARCHIVE group, keyed by the staged bundle paths. -/
theorem writes_map_fst (cfg : RunConfig) (gs : List Group) :
    (gs.flatMap (writesOfGroup cfg (fun _ => true))).map Prod.fst =
      archiveStagedPaths cfg gs := by
  simp only [archiveStagedPaths]
  induction gs with
  | nil => rfl
  | cons g gs ih =>
    by_cases harch : isArchiveGroup g = true
    · simp [List.flatMap_cons, writesOfGroup, harch, List.filter_cons, ih]
    · have harch' : isArchiveGroup g = false := by simpa using harch
      simp [List.flatMap_cons, writesOfGroup, harch', List.filter_cons, ih]

/-- The manifest items of a run are the per-group items in group order. -/
theorem runMain_items_eq (cfg : RunConfig) (stageOk : String → Bool) (s e : ℤ)
    (fs : List FsFile) :
    (runMain cfg stageOk s e fs).1.items =
      (scanGroups s e fs).flatMap (itemsOfGroup cfg stageOk) := by
  simp only [runMain, tarScan_spec]
  rw [foldl_groupStep]
  simp [initState]

/-- When all staging succeeds and no two ARCHIVE groups flatten to the
same staged path, each tar item of the manifest finds exactly its own
entries on the final staging disk. -/
theorem tarDisk_agree (cfg : RunConfig) (s e : ℤ) (fs : List FsFile)
    (hcol : (archiveStagedPaths cfg (scanGroups s e fs)).Nodup) (p : String) :
    ∀ it ∈ (runMain cfg (fun _ => true) s e fs).1.items,
      isTarDiskRefB (runMain cfg (fun _ => true) s e fs).1.disk p it =
        isTarRefB p it := by
  intro it hit
  have hndkeys : (((scanGroups s e fs).flatMap
      (writesOfGroup cfg (fun _ => true))).map Prod.fst).Nodup := by
    rw [writes_map_fst]
    exact hcol
  have hdisk : (runMain cfg (fun _ => true) s e fs).1.disk =
      (scanGroups s e fs).flatMap (writesOfGroup cfg (fun _ => true)) := by
    rw [runMain_disk, foldl_diskWrite_fresh _ _ (by intro w hw; simp) hndkeys]
    simp
  rw [runMain_items_eq] at hit
  obtain ⟨g, hg, hitg⟩ := List.mem_flatMap.mp hit
  by_cases harch : isArchiveGroup g = true
  · have hform : itemsOfGroup cfg (fun _ => true) g =
        [TItem.tar (stagedPath cfg g)
          (posixJoin cfg.GLOBUS_STAGING_ROOT (basename (stagedPath cfg g)))
          (posixJoin cfg.DEST_ROOT (tarNameBase g.relPath ++ ".tar"))
          (stagedEntries g)] := by
      simp [itemsOfGroup, harch]
    rw [hform, List.mem_singleton] at hitg
    subst hitg
    have hwmem : (stagedPath cfg g, stagedEntries g) ∈
        (scanGroups s e fs).flatMap (writesOfGroup cfg (fun _ => true)) :=
      List.mem_flatMap.mpr ⟨g, hg, by simp [writesOfGroup, harch]⟩
    have hget : diskGet (runMain cfg (fun _ => true) s e fs).1.disk
        (stagedPath cfg g) = stagedEntries g := by
      rw [hdisk]
      exact diskGet_of_mem _ hndkeys _ _ hwmem
    simp [isTarDiskRefB, isTarRefB, hget]
  · have harch' : isArchiveGroup g = false := by simpa using harch
    have hform : itemsOfGroup cfg (fun _ => true) g =
        g.files.map (fun x =>
          TItem.raw (posixJoin cfg.GLOBUS_SOURCE_ROOT (relFile x))
            (posixJoin cfg.DEST_ROOT (relFile x)) (relFile x)) := by
      simp [itemsOfGroup, harch']
    rw [hform] at hitg
    obtain ⟨x, _, hxe⟩ := List.mem_map.mp hitg
    subst hxe
    rfl

/-- C1 amended: in a run with no staging failures and no two groups
flattening to the same staged bundle path, every accepted file is
referenced by exactly one manifest item (with tar references read from
the staged bundles as they rest on disk at the end of the run); it is a
raw item exactly when the file's directory classifies RAW, and a tar item
exactly when it classifies ARCHIVE. -/
theorem qualifying_file_exactly_one_item (cfg : RunConfig) (s e : ℤ)
    (fs : List FsFile) (hninj : (fs.map relFile).Nodup)
    (hcol : (archiveStagedPaths cfg (scanGroups s e fs)).Nodup)
    (f : FsFile) (hf : f ∈ fs) (hok : f.statOk = true)
    (hw : inWindow s e f.mtime = true) :
    ((runMain cfg (fun _ => true) s e fs).1.items.countP
      (refsDiskItem (runMain cfg (fun _ => true) s e fs).1.disk (relFile f)) = 1) ∧
    ((runMain cfg (fun _ => true) s e fs).1.items.countP (isRawRefB (relFile f)) =
      if stratOf s e fs f.dir = .RAW then 1 else 0) ∧
    ((runMain cfg (fun _ => true) s e fs).1.items.countP
      (isTarDiskRefB (runMain cfg (fun _ => true) s e fs).1.disk (relFile f)) =
      if stratOf s e fs f.dir = .ARCHIVE then 1 else 0) := by
  have hrc := run_ref_counts cfg (fun _ => true) s e fs hninj f hf hok hw
  have hagree := tarDisk_agree cfg s e fs hcol (relFile f)
  have htarcnt : (runMain cfg (fun _ => true) s e fs).1.items.countP
      (isTarDiskRefB (runMain cfg (fun _ => true) s e fs).1.disk (relFile f)) =
      (runMain cfg (fun _ => true) s e fs).1.items.countP (isTarRefB (relFile f)) :=
    countP_congr_mem _ _ _ hagree
  have htar2 : (runMain cfg (fun _ => true) s e fs).1.items.countP
      (isTarRefB (relFile f)) =
      if stratOf s e fs f.dir = .ARCHIVE then 1 else 0 := by
    rw [hrc.2]
    by_cases ha : stratOf s e fs f.dir = .ARCHIVE
    · simp [ha]
    · simp [ha]
  refine ⟨?_, hrc.1, by rw [htarcnt, htar2]⟩
  rw [countP_refsDisk_split, hrc.1, htarcnt, htar2]
  cases hst : stratOf s e fs f.dir
  · simp [hst]
  · simp [hst]

/-! ### Claim C1: exactly one transfer item per accepted file -/

/-- A file in directory `a/b` (accepted, small). -/
def cexF1 : FsFile := ⟨"a/b", "x.txt", 10, 0, true, ""⟩

/-- A file in directory `a_b` (accepted, small). -/
def cexF2 : FsFile := ⟨"a_b", "y.txt", 10, 0, true, ""⟩

/-- A concrete run configuration. -/
def cexCfg : RunConfig := ⟨"/gsrc", "/stage", "/gstage", "/dest"⟩

/-- Counterexample to C1: with no staging failure at all, the two ARCHIVE
groups `a/b` and `a_b` flatten to the same staged bundle path
(`/stage/a_b.tar`), the second `create_tarball` call truncates the first
bundle, and at the end of the run the file of group `a/b` is contained in
the staged bundle of no manifest item (count 0, not 1) while the file of
group `a_b` is referenced by two items. -/
theorem collision_breaks_uniqueness :
    cexF1.statOk = true ∧ inWindow 0 0 cexF1.mtime = true ∧
    cexF2.statOk = true ∧ inWindow 0 0 cexF2.mtime = true ∧
    stratOf 0 0 [cexF1, cexF2] "a/b" = .ARCHIVE ∧
    stratOf 0 0 [cexF1, cexF2] "a_b" = .ARCHIVE ∧
    ((runMain cexCfg (fun _ => true) 0 0 [cexF1, cexF2]).1.items.countP
      (refsDiskItem (runMain cexCfg (fun _ => true) 0 0 [cexF1, cexF2]).1.disk
        (relFile cexF1)) = 0) ∧
    ((runMain cexCfg (fun _ => true) 0 0 [cexF1, cexF2]).1.items.countP
      (refsDiskItem (runMain cexCfg (fun _ => true) 0 0 [cexF1, cexF2]).1.disk
        (relFile cexF2)) = 2) := by
  decide

/-- A single accepted small file for the witness run. -/
def witF : FsFile := ⟨"a", "x.txt", 10, 0, true, ""⟩

/-- Witness for the amended C1 on a concrete run: one accepted small file,
no collisions, and its reference count in the final manifest is one. -/
theorem qualifying_file_exactly_one_item_witness :
    ([witF].map relFile).Nodup ∧
    (archiveStagedPaths cexCfg (scanGroups 0 0 [witF])).Nodup ∧
    witF ∈ [witF] ∧ witF.statOk = true ∧ inWindow 0 0 witF.mtime = true ∧
    ((runMain cexCfg (fun _ => true) 0 0 [witF]).1.items.countP
      (refsDiskItem (runMain cexCfg (fun _ => true) 0 0 [witF]).1.disk
        (relFile witF)) = 1) := by
  refine ⟨by decide, by decide, by decide, by decide, by decide, ?_⟩
  exact (qualifying_file_exactly_one_item cexCfg 0 0 [witF] (by decide) (by decide)
    witF (by decide) (by decide) (by decide)).1

/-! ### Claim C7: partial-failure isolation -/

/-- Each group loop iteration queues exactly as many files as it appends
items. -/
theorem itemsOfGroup_length (cfg : RunConfig) (stageOk : String → Bool) (g : Group) :
    (itemsOfGroup cfg stageOk g).length = queuedOfGroup stageOk g := by
  by_cases harch : isArchiveGroup g = true
  · by_cases hok : stageOk g.relPath = true
    · simp [itemsOfGroup, queuedOfGroup, harch, hok]
    · have hok' : stageOk g.relPath = false := by simpa using hok
      simp [itemsOfGroup, queuedOfGroup, harch, hok']
  · have harch' : isArchiveGroup g = false := by simpa using harch
    simp [itemsOfGroup, queuedOfGroup, harch']

/-- `files_queued` counts exactly the manifest items. -/
theorem runMain_filesQueued (cfg : RunConfig) (stageOk : String → Bool) (s e : ℤ)
    (fs : List FsFile) :
    (runMain cfg stageOk s e fs).1.filesQueued =
      (runMain cfg stageOk s e fs).1.items.length := by
  rw [runMain_items_eq]
  have hlen : ∀ gs : List Group, (gs.flatMap (itemsOfGroup cfg stageOk)).length =
      (gs.map (queuedOfGroup stageOk)).sum := by
    intro gs
    induction gs with
    | nil => rfl
    | cons g gs ih => simp [List.flatMap_cons, itemsOfGroup_length, ih]
  simp only [runMain, tarScan_spec]
  rw [foldl_groupStep]
  simp [initState, hlen]

/-- C7: when staging fails for exactly the ARCHIVE group `g0` (its
`create_tarball` returns `None`) and every other group stages fine, the
failed group's files are referenced by no manifest item, every other
accepted file keeps its single reference, and the run still reaches
submission. -/
theorem staging_failure_isolated (cfg : RunConfig) (s e : ℤ) (fs : List FsFile)
    (g0 : String) (hninj : (fs.map relFile).Nodup)
    (harch : stratOf s e fs g0 = .ARCHIVE)
    (hother : ∃ f' ∈ fs, f'.statOk = true ∧ inWindow s e f'.mtime = true ∧
      f'.dir ≠ g0) :
    (∀ f ∈ fs, f.statOk = true → inWindow s e f.mtime = true → f.dir = g0 →
      (runMain cfg (fun d => decide (d ≠ g0)) s e fs).1.items.countP
        (refsItem (relFile f)) = 0) ∧
    (∀ f ∈ fs, f.statOk = true → inWindow s e f.mtime = true → f.dir ≠ g0 →
      (runMain cfg (fun d => decide (d ≠ g0)) s e fs).1.items.countP
        (refsItem (relFile f)) = 1) ∧
    submitted (runMain cfg (fun d => decide (d ≠ g0)) s e fs).1 = true := by
  have hone : ∀ f ∈ fs, f.statOk = true → inWindow s e f.mtime = true → f.dir ≠ g0 →
      (runMain cfg (fun d => decide (d ≠ g0)) s e fs).1.items.countP
        (refsItem (relFile f)) = 1 := by
    intro f hf hok hw hd
    have hrc := run_ref_counts cfg (fun d => decide (d ≠ g0)) s e fs hninj f hf hok hw
    rw [countP_refs_split, hrc.1, hrc.2]
    have hsk : (decide (f.dir ≠ g0)) = true := by simpa using hd
    cases hst : stratOf s e fs f.dir
    · simp [hst, hsk]
    · simp [hst]
  refine ⟨?_, hone, ?_⟩
  · intro f hf hok hw hd
    have hrc := run_ref_counts cfg (fun d => decide (d ≠ g0)) s e fs hninj f hf hok hw
    rw [countP_refs_split, hrc.1, hrc.2]
    have hsa : stratOf s e fs f.dir = .ARCHIVE := by rw [hd]; exact harch
    have hnr : ¬ stratOf s e fs f.dir = .RAW := by simp [hsa]
    have hskf : (decide (f.dir ≠ g0)) = false := by simp [hd]
    simp [hnr, hskf]
  · obtain ⟨f', hf', hok', hw', hd'⟩ := hother
    have hcnt := hone f' hf' hok' hw' hd'
    have hle : (runMain cfg (fun d => decide (d ≠ g0)) s e fs).1.items.countP
        (refsItem (relFile f')) ≤
        (runMain cfg (fun d => decide (d ≠ g0)) s e fs).1.items.length :=
      List.countP_le_length _
    simp only [submitted, runMain_filesQueued]
    rw [hcnt] at hle
    simp only [decide_eq_true_eq]
    omega

/-- Another accepted small file, in directory `b`, for the C7 witness. -/
def w7F2 : FsFile := ⟨"b", "y.txt", 10, 0, true, ""⟩

/-- Witness for C7 on a concrete run: staging fails exactly for group
`a`; the run still submits. -/
theorem staging_failure_isolated_witness :
    ([witF, w7F2].map relFile).Nodup ∧
    stratOf 0 0 [witF, w7F2] "a" = .ARCHIVE ∧
    (∃ f' ∈ [witF, w7F2], f'.statOk = true ∧ inWindow 0 0 f'.mtime = true ∧
      f'.dir ≠ "a") ∧
    submitted (runMain cexCfg (fun d => decide (d ≠ "a")) 0 0 [witF, w7F2]).1 = true := by
  refine ⟨by decide, by decide, by decide, ?_⟩
  exact (staging_failure_isolated cexCfg 0 0 [witF, w7F2] "a" (by decide) (by decide)
    (by decide)).2.2

/-! ### Claim C10: the `root_files` bundle -/

theorem foldl_basename_slashfree (ys : List Char) (hys : ('/' : Char) ∉ ys) :
    ∀ acc : List Char,
      ys.foldl (fun acc c => if c = '/' then [] else acc ++ [c]) acc = acc ++ ys := by
  induction ys with
  | nil => intro acc; simp
  | cons c ys ih =>
    intro acc
    have hc : ¬ c = '/' := fun he => hys (List.mem_cons.mpr (Or.inl he.symm))
    rw [List.foldl_cons, if_neg hc,
      ih (fun hm => hys (List.mem_cons.mpr (Or.inr hm)))]
    simp

theorem afterLastSlash_append (xs ys : List Char) (hys : ('/' : Char) ∉ ys) :
    afterLastSlash (xs ++ '/' :: ys) = ys := by
  simp only [afterLastSlash]
  rw [show xs ++ '/' :: ys = (xs ++ ['/']) ++ ys by simp, List.foldl_append,
    List.foldl_append]
  simp only [List.foldl_cons, List.foldl_nil, if_pos rfl]
  rw [foldl_basename_slashfree ys hys]
  simp

/-- `os.path.basename` of a join recovers the last component when that
component carries no separator. -/
theorem basename_posixJoin (a n : String) (hn : ('/' : Char) ∉ n.data)
    (hne : n ≠ "") : basename (posixJoin a n) = n := by
  have hstart : strStartsWithSlash n = false := by
    rw [strStartsWithSlash]
    cases hd : n.data with
    | nil => exact absurd (String.ext hd) hne
    | cons c cs =>
      have hc : ¬ c = '/' := fun he => hn (hd ▸ List.mem_cons.mpr (Or.inl he.symm))
      simp [hc, fun he : c = '/' => hc he]
  simp only [posixJoin, hstart, Bool.false_eq_true, if_false]
  by_cases hbase : a = "" ∨ strEndsWithSlash a = true
  · rw [if_pos hbase]
    rcases hbase with hae | hslash
    · subst hae
      rw [show basename ("" ++ n) = String.mk (afterLastSlash (("" ++ n).data)) from rfl]
      rw [show (("" : String) ++ n).data = n.data by simp]
      rw [show afterLastSlash n.data = n.data from by
        simpa using foldl_basename_slashfree n.data hn []]
    · have hslash' : a.data.getLast? = some ('/' : Char) := by
        simpa [strEndsWithSlash] using hslash
      obtain ⟨xs, hxs⟩ := List.getLast?_eq_some_iff.mp hslash'
      rw [show basename (a ++ n) = String.mk (afterLastSlash ((a ++ n).data)) from rfl]
      rw [show (a ++ n).data = xs ++ '/' :: n.data from by
        rw [String.data_append, hxs]; simp]
      rw [afterLastSlash_append xs n.data hn]
  · rw [if_neg hbase]
    rw [show basename (a ++ "/" ++ n) =
      String.mk (afterLastSlash ((a ++ "/" ++ n).data)) from rfl]
    rw [show (a ++ "/" ++ n).data = a.data ++ '/' :: n.data from by
      rw [String.data_append, String.data_append]
      simp]
    rw [afterLastSlash_append a.data n.data hn]

/-- C10: a group of qualifying files directly in the scan root
(`rel_path == '.'`) is bundled under the literal base name `root_files`:
the staged bundle file is named `root_files.tar` and its destination is
`<dest_root>/root_files.tar`. -/
theorem root_group_bundle (cfg : RunConfig) (stageOk : String → Bool) (g : Group)
    (hroot : g.relPath = ".") (harch : isArchiveGroup g = true)
    (hok : stageOk "." = true)
    (hd1 : cfg.DEST_ROOT ≠ "") (hd2 : strEndsWithSlash cfg.DEST_ROOT = false) :
    stagedPath cfg g = posixJoin cfg.STAGING_ROOT "root_files.tar" ∧
    basename (stagedPath cfg g) = "root_files.tar" ∧
    itemsOfGroup cfg stageOk g =
      [.tar (posixJoin cfg.STAGING_ROOT "root_files.tar")
        (posixJoin cfg.GLOBUS_STAGING_ROOT "root_files.tar")
        (cfg.DEST_ROOT ++ "/" ++ "root_files.tar")
        (stagedEntries g)] := by
  have hname : createTarballName (tarNameBase ".") = "root_files.tar" := by decide
  have hsp : stagedPath cfg g = posixJoin cfg.STAGING_ROOT "root_files.tar" := by
    simp only [stagedPath, createTarballPath, hroot, hname]
  have hbn : basename (stagedPath cfg g) = "root_files.tar" := by
    rw [hsp]
    exact basename_posixJoin _ _ (by decide) (by decide)
  have hdest : posixJoin cfg.DEST_ROOT "root_files.tar" =
      cfg.DEST_ROOT ++ "/" ++ "root_files.tar" := by
    simp only [posixJoin]
    rw [if_neg (by decide : ¬ strStartsWithSlash "root_files.tar" = true)]
    rw [if_neg ?_]
    rintro (h1 | h2)
    · exact hd1 h1
    · rw [hd2] at h2
      cases h2
  refine ⟨hsp, hbn, ?_⟩
  simp only [itemsOfGroup, harch, hroot, hok, if_true, stagedPath, createTarballPath,
    hname]
  rw [basename_posixJoin _ _ (by decide) (by decide)]
  rw [show tarNameBase "." ++ ".tar" = "root_files.tar" from by decide, hdest]

/-- The root group for the C10 witness. -/
def w10G : Group := ⟨".", [⟨".", "x.txt", 10, 0, true, ""⟩]⟩

/-- Witness for C10 on a concrete root group: the staged bundle is named
`root_files.tar`. -/
theorem root_group_bundle_witness :
    w10G.relPath = "." ∧ isArchiveGroup w10G = true ∧
    cexCfg.DEST_ROOT ≠ "" ∧ strEndsWithSlash cexCfg.DEST_ROOT = false ∧
    basename (stagedPath cexCfg w10G) = "root_files.tar" := by
  refine ⟨by decide, by decide, by decide, by decide, ?_⟩
  exact (root_group_bundle cexCfg (fun _ => true) w10G (by decide) (by decide)
    (by decide) (by decide) (by decide)).2.1
